import Mathlib

/-!
Verification development for the ring-builder control-plane tool
(partition-placement and rebalance engine of a distributed object store).

The repository ships the CLI test suite; the builder and CLI implementation
itself is not part of the sources, so the definitions below are modelled
from the specification (spec.md sections are cited throughout), with the
concrete outcomes pinned by the repository's tests.

The model is a shallow embedding: the builder is an explicit value threaded
through the operations (spec section 9), rebalance is a pure function of the
builder state, the random seed and the current time in seconds, and the
nonnegative reals of the spec (weights, replica count, overload) are exact
rational numbers.
-/

/-- Exact rational arithmetic used for weights, replica counts, overload and
balance percentages.  Fractions are kept unnormalized (no gcd) so that all
operations reduce inside the kernel; the denominator is positive for every
value the model constructs. -/
structure Frac where
  num : Int
  den : Nat := 1
deriving DecidableEq, Repr

def Frac.ofNat (n : Nat) : Frac := ⟨n, 1⟩

def Frac.zero : Frac := ⟨0, 1⟩

def Frac.add (a b : Frac) : Frac := ⟨a.num * b.den + b.num * a.den, a.den * b.den⟩

def Frac.neg (a : Frac) : Frac := ⟨-a.num, a.den⟩

def Frac.sub (a b : Frac) : Frac := a.add b.neg

def Frac.mul (a b : Frac) : Frac := ⟨a.num * b.num, a.den * b.den⟩

/-- Division.  Division by zero yields zero, as in the ambient mathlib
convention; the model only divides by totals it has checked to be positive. -/
def Frac.divQ (a b : Frac) : Frac :=
  if b.num < 0 then ⟨-(a.num * b.den), a.den * b.num.natAbs⟩
  else ⟨a.num * b.den, a.den * b.num.natAbs⟩

def Frac.le (a b : Frac) : Bool := a.num * b.den ≤ b.num * a.den

def Frac.lt (a b : Frac) : Bool := a.num * b.den < b.num * a.den

/-- Floor of a nonnegative fraction, as a natural number. -/
def Frac.floorNat (q : Frac) : Nat := q.num.toNat / q.den

/-- Nearest integer (half rounds up) of a nonnegative fraction. -/
def Frac.roundNat (q : Frac) : Nat := (2 * q.num.toNat + q.den) / (2 * q.den)

def Frac.absQ (q : Frac) : Frac := if q.num < 0 then ⟨-q.num, q.den⟩ else q

def Frac.maxQ (a b : Frac) : Frac := if Frac.lt a b then b else a

/-! ### Generic fold lemmas

The planner is a sequence of left folds over slot lists; these two lemmas
carry an invariant through a fold and establish a per-element property. -/

theorem foldl_inv_keep {σ α : Type _} {f : σ → α → σ} {Q P : σ → Prop} :
    ∀ (l : List α) (st : σ),
      (∀ s x, x ∈ l → Q s → Q (f s x)) →
      (∀ s x, x ∈ l → Q s → P s → P (f s x)) →
      Q st → P st → Q (l.foldl f st) ∧ P (l.foldl f st) := by
  intro l
  induction l with
  | nil => intro st _ _ hq hp; exact ⟨hq, hp⟩
  | cons a l ih =>
      intro st hq hp hq0 hp0
      exact ih (f st a)
        (fun s x hx => hq s x (List.mem_cons_of_mem _ hx))
        (fun s x hx => hp s x (List.mem_cons_of_mem _ hx))
        (hq st a (List.mem_cons_self _ _) hq0)
        (hp st a (List.mem_cons_self _ _) hq0 hp0)

theorem foldl_inv_only {σ α : Type _} {f : σ → α → σ} {Q : σ → Prop}
    (l : List α) (st : σ)
    (hq : ∀ s x, x ∈ l → Q s → Q (f s x)) (h0 : Q st) : Q (l.foldl f st) :=
  (foldl_inv_keep (P := fun _ => True) l st hq (fun _ _ _ _ _ => trivial) h0 trivial).1

theorem foldl_inv_est {σ α : Type _} {f : σ → α → σ} {Q : σ → Prop}
    {P : σ → α → Prop} :
    ∀ (l : List α) (st : σ),
      (∀ s x, x ∈ l → Q s → Q (f s x)) →
      (∀ s x, x ∈ l → Q s → P (f s x) x) →
      (∀ s x y, x ∈ l → Q s → P s y → P (f s x) y) →
      Q st → ∀ y ∈ l, P (l.foldl f st) y := by
  intro l
  induction l with
  | nil => intro st _ _ _ _ y hy; cases hy
  | cons a l ih =>
      intro st hq hest hmono hq0 y hy
      rcases List.mem_cons.mp hy with rfl | hy
      · exact (foldl_inv_keep l (f st y)
          (fun s x hx => hq s x (List.mem_cons_of_mem _ hx))
          (fun s x hx => hmono s x y (List.mem_cons_of_mem _ hx))
          (hq st y (List.mem_cons_self _ _) hq0)
          (hest st y (List.mem_cons_self _ _) hq0)).2
      · exact ih (f st a)
          (fun s x hx => hq s x (List.mem_cons_of_mem _ hx))
          (fun s x hx => hest s x (List.mem_cons_of_mem _ hx))
          (fun s x z hx => hmono s x z (List.mem_cons_of_mem _ hx))
          (hq st a (List.mem_cons_self _ _) hq0) y hy

/-! ### Small list helpers -/

/-- Boolean membership check on lists of naturals. -/
def memB (x : Nat) : List Nat → Bool
  | [] => false
  | y :: ys => x == y || memB x ys

theorem memB_iff (x : Nat) (l : List Nat) : memB x l = true ↔ x ∈ l := by
  induction l with
  | nil => simp [memB]
  | cons y ys ih => simp [memB, ih, List.mem_cons]

/-- Boolean duplicate-freedom check for a list of device ids. -/
def nodupB : List Nat → Bool
  | [] => true
  | x :: xs => !memB x xs && nodupB xs

theorem nodupB_iff (l : List Nat) : nodupB l = true ↔ l.Nodup := by
  induction l with
  | nil => simp [nodupB]
  | cons x xs ih =>
      simp only [nodupB, Bool.and_eq_true, Bool.not_eq_true', List.nodup_cons, ih]
      constructor
      · rintro ⟨h1, h2⟩
        exact ⟨fun hx => by simp [(memB_iff x xs).mpr hx] at h1, h2⟩
      · rintro ⟨h1, h2⟩
        refine ⟨?_, h2⟩
        cases hm : memB x xs with
        | false => rfl
        | true => exact absurd ((memB_iff x xs).mp hm) h1

/-- Substring test on character lists (string fields match by substring,
spec section 4.1). -/
def leadsList : List Char → List Char → Bool
  | [], _ => true
  | _ :: _, [] => false
  | a :: as, b :: bs => a == b && leadsList as bs

def substrB (pat : List Char) : List Char → Bool
  | [] => leadsList pat []
  | c :: rest => leadsList pat (c :: rest) || substrB pat rest

/-- Largest element of a list of naturals, used for the most recent
partition move time. -/
def maxList : List Nat → Nat
  | [] => 0
  | x :: xs => xs.foldl max x

/-! ### Data model (spec section 3)

A device record.  Ids are stable and equal to the device's index in the
sparse id-indexed registry sequence; a removed-and-finalized device leaves a
hole, never reusing a live index for a different device. -/

structure Device where
  id : Nat
  region : Nat
  zone : Nat
  ip : String
  port : Nat
  replication_ip : String
  replication_port : Nat
  device : String
  meta : String
  weight : Frac
  parts : Nat
  parts_wanted : Int
  pending_removal : Bool
deriving DecidableEq, Repr

/-- Assignment table in partition-major view: entry p is the list of the
replica slots of partition p (the transpose of the replica-by-partition
matrix of spec section 3).  A slot holds the id of the device serving that
replica, or none while the replica is unplaced (transiently during planning,
and before the first rebalance). -/
abbrev Table := List (List (Option Nat))

structure RingBuilder where
  part_power : Nat
  replicas : Frac
  min_part_hours : Nat
  overload : Frac
  version : Nat
  dispersion : Option Frac
  devs : List (Option Device)
  replica2part2dev : Table
  last_part_moves : List (Option Nat)
deriving DecidableEq, Repr

def RingBuilder.parts (b : RingBuilder) : Nat := 2 ^ b.part_power

/-! Fractional replica counts (spec section 3): every partition gets
floor(R) replicas, and round(R * parts) - floor(R) * parts partitions
additionally get one extra replica, chosen deterministically (the lowest
partition numbers). -/

def repFloor (R : Frac) : Nat := R.floorNat

def repExtra (R : Frac) (parts : Nat) : Nat :=
  (R.mul (Frac.ofNat parts)).roundNat - repFloor R * parts

def repCount (R : Frac) (parts p : Nat) : Nat :=
  repFloor R + (if p < repExtra R parts then 1 else 0)

/-- Largest per-partition replica count, i.e. the effective ceil(R) under the
fractional-replica rule of spec section 3. -/
def repMax (R : Frac) (parts : Nat) : Nat :=
  repFloor R + (if 0 < repExtra R parts then 1 else 0)

theorem repCount_le_repMax (R : Frac) (parts p : Nat) :
    repCount R parts p ≤ repMax R parts := by
  unfold repCount repMax
  by_cases h : p < repExtra R parts
  · have : 0 < repExtra R parts := Nat.pos_of_ne_zero (by omega)
    simp [h, this]
  · simp [h]

def RingBuilder.replicaCountFor (b : RingBuilder) (p : Nat) : Nat :=
  repCount b.replicas b.parts p

/-- Total number of replica slots across all partitions. -/
def expectedSlots (R : Frac) (parts : Nat) : Nat :=
  ((List.range parts).map (repCount R parts)).sum

/-- Fresh all-unassigned table of the canonical shape. -/
def initialTable (R : Frac) (parts : Nat) : Table :=
  (List.range parts).map (fun p => List.replicate (repCount R parts p) none)

/-- Creates a builder: empty registry, empty (all-unassigned) table
(spec section 3: the table is created empty at builder creation and only
ever mutated by rebalance). -/
def RingBuilder.create (part_power : Nat) (replicas : Frac)
    (min_part_hours : Nat) : RingBuilder :=
  { part_power := part_power
    replicas := replicas
    min_part_hours := min_part_hours
    overload := Frac.zero
    version := 0
    dispersion := none
    devs := []
    replica2part2dev := initialTable replicas (2 ^ part_power)
    last_part_moves := List.replicate (2 ^ part_power) none }

/-! ### DeviceRegistry (spec section 4.1) -/

def devAt (devs : List (Option Device)) (i : Nat) : Option Device :=
  (devs[i]?).join

/-- Ids of the non-removed (present, not pending-removal) devices, in
registry order. -/
def activeIds (devs : List (Option Device)) : List Nat :=
  (List.range devs.length).filter (fun i =>
    match devAt devs i with
    | some d => !d.pending_removal
    | none => false)

/-- The non-removed devices themselves, in registry order. -/
def activeDevs (devs : List (Option Device)) : List Device :=
  (activeIds devs).filterMap (devAt devs)

/-- All devices present in the registry (including ones flagged
pending-removal that have not been finalized yet), in registry order. -/
def allDevs (devs : List (Option Device)) : List Device :=
  devs.filterMap id

/-- Search criteria: a partial record; string fields match by substring,
numeric fields by exact value (spec section 4.1). -/
structure DevSearch where
  id : Option Nat := none
  region : Option Nat := none
  zone : Option Nat := none
  ip : Option String := none
  port : Option Nat := none
  replication_ip : Option String := none
  replication_port : Option Nat := none
  device : Option String := none
  meta : Option String := none
  weight : Option Frac := none
deriving DecidableEq, Repr

def matchNum (c : Option Nat) (v : Nat) : Bool :=
  match c with
  | none => true
  | some x => x == v

def matchStr (c : Option String) (v : String) : Bool :=
  match c with
  | none => true
  | some x => substrB x.data v.data

def matchFrac (c : Option Frac) (v : Frac) : Bool :=
  match c with
  | none => true
  | some x => x == v

def matchesDev (c : DevSearch) (d : Device) : Bool :=
  matchNum c.id d.id && matchNum c.region d.region && matchNum c.zone d.zone &&
  matchStr c.ip d.ip && matchNum c.port d.port &&
  matchStr c.replication_ip d.replication_ip &&
  matchNum c.replication_port d.replication_port &&
  matchStr c.device d.device && matchStr c.meta d.meta &&
  matchFrac c.weight d.weight

/-- Search: the ordered sequence of all devices matching all given criteria
(spec section 4.1). -/
def search_devs (b : RingBuilder) (c : DevSearch) : List Device :=
  (allDevs b.devs).filter (matchesDev c)

inductive RingError
  | noDevices
  | tooFewDevicesForReplicas
  | noMatchingDevice
  | ambiguousMatch
  | duplicateIdentity
  | invalidDeviceName
  | inputError
deriving DecidableEq, Repr

/-- Device names must be non-empty with no leading or trailing whitespace
(spec section 4.1). -/
def validDeviceName (s : String) : Bool :=
  match s.data with
  | [] => false
  | c :: cs => !c.isWhitespace && !((c :: cs).getLast (by simp)).isWhitespace

def identityClash (devs : List (Option Device)) (d : Device) : Bool :=
  (allDevs devs).any (fun e =>
    e.ip == d.ip && e.port == d.port && e.device == d.device)

/-- Next free id for a device added without an explicit id: holes left by
finalized removals are never reused for a different device
(spec sections 3 and 9). -/
def next_dev_id (devs : List (Option Device)) : Nat := devs.length

/-- Stores a device at a given index, growing the sparse sequence with holes
as needed (used for adds with an explicit id). -/
def setPad (l : List (Option Device)) (i : Nat) (v : Device) :
    List (Option Device) :=
  if i < l.length then l.set i (some v)
  else l ++ List.replicate (i - l.length) none ++ [some v]

/-- Adds a device (spec section 4.1).  With explicitId none the next free id
is assigned.  Fails with duplicateIdentity when the (ip, port, device_name)
tuple or the explicit id is already taken, and with invalidDeviceName for a
bad name.  No side effect on the assignment table; invalidates the cached
dispersion score (spec section 4.3). -/
def add_dev (b : RingBuilder) (d : Device) (explicitId : Option Nat) :
    Except RingError RingBuilder :=
  if !validDeviceName d.device then .error .invalidDeviceName
  else if identityClash b.devs d then .error .duplicateIdentity
  else
    match explicitId with
    | some i =>
        match devAt b.devs i with
        | some _ => .error .duplicateIdentity
        | none => .ok { b with
            devs := setPad b.devs i
              { d with id := i, parts := 0, parts_wanted := 0,
                       pending_removal := false }
            dispersion := none }
    | none => .ok { b with
        devs := b.devs ++ [some
          { d with id := next_dev_id b.devs, parts := 0, parts_wanted := 0,
                   pending_removal := false }]
        dispersion := none }

/-- Removes a device by selector (spec section 4.1): resolves to exactly one
device, sets its weight to 0 and flags it pending-removal; every other
device and the assignment table are untouched until the next rebalance. -/
def remove_dev (b : RingBuilder) (c : DevSearch) :
    Except RingError RingBuilder :=
  match search_devs b c with
  | [] => .error .noMatchingDevice
  | [d] => .ok { b with
      devs := b.devs.map (fun od =>
        match od with
        | some e =>
            if e.id = d.id then
              some { e with weight := Frac.zero, pending_removal := true }
            else some e
        | none => none)
      dispersion := none }
  | _ :: _ :: _ => .error .ambiguousMatch

/-- Reweights a device by selector (spec section 4.1). -/
def set_weight (b : RingBuilder) (c : DevSearch) (w : Frac) :
    Except RingError RingBuilder :=
  match search_devs b c with
  | [] => .error .noMatchingDevice
  | [d] => .ok { b with
      devs := b.devs.map (fun od =>
        match od with
        | some e => if e.id = d.id then some { e with weight := w } else some e
        | none => none)
      dispersion := none }
  | _ :: _ :: _ => .error .ambiguousMatch

/-- Sets the overload fraction; a negative value is an input error and the
operation aborts with no state mutated (spec sections 6 and 7). -/
def set_overload (b : RingBuilder) (q : Frac) : Except RingError RingBuilder :=
  if Frac.lt q Frac.zero then .error .inputError
  else .ok { b with overload := q }

/-- Forgets all per-partition move times, forcing immediate move eligibility
(spec section 7). -/
def pretend_min_part_hours_passed (b : RingBuilder) : RingBuilder :=
  { b with last_part_moves := List.replicate b.parts none }

/-- Most recent partition move time, if any partition has ever moved. -/
def lastMoveTime (b : RingBuilder) : Option Nat :=
  match b.last_part_moves.filterMap id with
  | [] => none
  | t :: ts => some (ts.foldl max t)

/-- Seconds left before the most recently moved partition may move again. -/
def min_part_seconds_left (b : RingBuilder) (now : Nat) : Nat :=
  match lastMoveTime b with
  | none => 0
  | some t => b.min_part_hours * 3600 - (now - t)

/-! ### BalanceAnalyzer (spec section 4.3) -/

/-- Sum of the weights of the non-removed devices. -/
def total_weight (b : RingBuilder) : Frac :=
  (activeDevs b.devs).foldl (fun a d => a.add d.weight) Frac.zero

/-- Number of partition-replica slots a unit of weight should carry, as the
exact fraction (parts * R) / totalWeight (spec section 4.2 step 1). -/
def weight_of_one_part (b : RingBuilder) : Frac :=
  ((Frac.ofNat b.parts).mul b.replicas).divQ (total_weight b)

def idealFor (b : RingBuilder) (d : Device) : Frac :=
  d.weight.mul (weight_of_one_part b)

/-- Advisory at-risk flag: true when totalWeight exceeds parts * R,
equivalently when weightOfOnePart is below one (spec section 4.3). -/
def at_risk (b : RingBuilder) : Bool :=
  Frac.lt ((Frac.ofNat b.parts).mul b.replicas) (total_weight b)

/-- Per-device balance: 100 * (assigned - ideal) / ideal, in absolute value;
a device with zero ideal share but assigned parts scores the sentinel
maximum (spec section 4.3). -/
def devBalance (b : RingBuilder) (d : Device) : Frac :=
  let ideal := idealFor b d
  if Frac.le ideal Frac.zero then
    (if d.parts = 0 then Frac.zero else Frac.ofNat 999)
  else
    (((Frac.ofNat d.parts).sub ideal).mul (Frac.ofNat 100)).divQ ideal |>.absQ

/-- Ring balance: maximum absolute per-device balance (spec section 4.3). -/
def get_balance (b : RingBuilder) : Frac :=
  (activeDevs b.devs).foldl (fun a d => a.maxQ (devBalance b d)) Frac.zero

/-! ### Dispersion (spec section 4.3)

A replica violates ideal separation when another replica of the same
partition sits in the same failure domain (same region and zone). -/

def rowAt (t : Table) (p : Nat) : List (Option Nat) := (t[p]?).getD []

def rowIds (row : List (Option Nat)) : List Nat := row.filterMap id

def dispersionViolationAt (devs : List (Option Device)) (t : Table)
    (p i : Nat) : Bool :=
  match (rowAt t p)[i]? |>.join with
  | none => false
  | some d =>
      match devAt devs d with
      | none => false
      | some dv =>
          (rowIds ((rowAt t p).set i none)).any (fun j =>
            match devAt devs j with
            | some dj => dj.region == dv.region && dj.zone == dv.zone
            | none => false)

/-- Every (partition, replica-slot) pair of a table of the canonical shape. -/
def allSlots (R : Frac) (parts : Nat) : List (Nat × Nat) :=
  (List.range parts).flatMap (fun p =>
    (List.range (repCount R parts p)).map (fun i => (p, i)))

/-- Percentage of (partition, replica) pairs violating ideal separation. -/
def dispersionScore (devs : List (Option Device)) (R : Frac) (parts : Nat)
    (t : Table) : Frac :=
  let slots := allSlots R parts
  let viol := slots.countP (fun s => dispersionViolationAt devs t s.1 s.2)
  (Frac.ofNat (100 * viol)).divQ (Frac.ofNat slots.length)

/-! ### ConsistencyValidator (spec section 4.4) -/

/-- Number of table entries referencing a device id. -/
def countRefs (t : Table) (i : Nat) : Nat :=
  (t.map (fun row => row.countP (fun e => e == some i))).sum

def tableAssignedCount (t : Table) : Nat :=
  (t.map (fun row => (rowIds row).length)).sum

/-- Structural validation (spec section 4.4): (a) every assigned entry
references a device present in the registry, (b) each partition's replica
devices are pairwise distinct, (c) each device's parts counter equals the
number of table entries referencing it, (d) the table has the canonical
shape and is either fully assigned or (before the first rebalance, spec
section 8) fully unassigned, (e) under strict, every device's balance is
within tolerance. -/
def validateB (b : RingBuilder) (strict : Bool) : Bool :=
  b.replica2part2dev.length == b.parts &&
  (List.range b.parts).all
    (fun p => (rowAt b.replica2part2dev p).length == b.replicaCountFor p) &&
  b.replica2part2dev.all
    (fun row => (rowIds row).all (fun i => (devAt b.devs i).isSome)) &&
  b.replica2part2dev.all (fun row => nodupB (rowIds row)) &&
  (List.range b.devs.length).all (fun i =>
    match devAt b.devs i with
    | none => true
    | some d => d.parts == countRefs b.replica2part2dev i) &&
  (tableAssignedCount b.replica2part2dev == 0 ||
    tableAssignedCount b.replica2part2dev == expectedSlots b.replicas b.parts) &&
  (!strict || Frac.le (get_balance b) (Frac.ofNat 5))

/-! ### PlacementPlanner (spec section 4.2)

The planner works on a plan state: the evolving table, the per-partition
move times, the evolving parts-wanted counters, the list of gathered
(partition, slot) pairs awaiting placement, and the number of candidate
moves that were deferred because of min_part_hours. -/

structure PlanState where
  table : Table
  last_part_moves : List (Option Nat)
  wants : List Int
  gathered : List (Nat × Nat)
  deferredCount : Nat
deriving DecidableEq, Repr

def setEntry (t : Table) (p i : Nat) (v : Option Nat) : Table :=
  t.set p ((rowAt t p).set i v)

def bumpWants (w : List Int) (d : Nat) (k : Int) : List Int :=
  w.set d (w.getD d 0 + k)

/-- Seeded pseudo-random mixing used for tie-breaking and candidate order
(spec section 4.2 steps 3 and 4). -/
def mix (seed x : Nat) : Nat :=
  (x * 2654435761 + seed * 2246822519 + 97531) % 4294967296

/-- Seeded pseudo-random permutation of the slot list. -/
def seededOrder (seed : Nat) (l : List (Nat × Nat)) : List (Nat × Nat) :=
  ((l.map (fun s => (mix seed (s.1 * 65536 + s.2), s))).insertionSort
    (fun a b => a.1 ≤ b.1)).map (fun a => a.2)

theorem seededOrder_perm (seed : Nat) (l : List (Nat × Nat)) :
    List.Perm (seededOrder seed l) l := by
  have h1 := (List.perm_insertionSort (fun a b => a.1 ≤ b.1)
    (l.map (fun s => (mix seed (s.1 * 65536 + s.2), s)))).map (fun a => a.2)
  rw [List.map_map] at h1
  have h2 : l.map ((fun a => a.2) ∘ fun s => (mix seed (s.1 * 65536 + s.2), s))
      = l := List.map_id'' (fun _ => rfl) l
  rw [seededOrder]
  exact h1.trans (by rw [h2])

/-- Gathering decision for one slot. -/
inductive GDecision
  | gatherIt
  | deferIt
  | skipIt
deriving DecidableEq, Repr

/-- Eligibility with respect to the dwell time: a partition whose last move
is within min_part_hours may not move voluntarily (spec section 3). -/
def dwellOk (mph now : Nat) (lm : List (Option Nat)) (p : Nat) : Bool :=
  match (lm[p]?).join with
  | none => true
  | some t => t + mph * 3600 ≤ now

/-- One gathering step: a gathered slot is emptied, its partition's move
time is stamped, and the source device sheds one wanted part. -/
def gatherStep (now : Nat) (rule : PlanState → Nat → Nat → GDecision)
    (st : PlanState) (s : Nat × Nat) : PlanState :=
  match rule st s.1 s.2 with
  | .skipIt => st
  | .deferIt => { st with deferredCount := st.deferredCount + 1 }
  | .gatherIt =>
      { st with
        table := setEntry st.table s.1 s.2 none
        last_part_moves := st.last_part_moves.set s.1 (some now)
        wants :=
          match ((rowAt st.table s.1)[s.2]?).join with
          | some d => bumpWants st.wants d 1
          | none => st.wants
        gathered := st.gathered ++ [s] }

def gatherPass (now : Nat) (rule : PlanState → Nat → Nat → GDecision)
    (order : List (Nat × Nat)) (st : PlanState) : PlanState :=
  order.foldl (gatherStep now rule) st

/-- Mandatory gathering (spec section 4.2 step 2, cases a and d): a slot is
gathered when it is unplaced or its device is gone or pending-removal;
dwell time never blocks mandatory reassignment. -/
def ruleMandatory (devs : List (Option Device))
    (st : PlanState) (p i : Nat) : GDecision :=
  match ((rowAt st.table p)[i]?).join with
  | none =>
      match (rowAt st.table p)[i]? with
      | some _ => .gatherIt
      | none => .skipIt
  | some d =>
      match devAt devs d with
      | none => .gatherIt
      | some dev => if dev.pending_removal then .gatherIt else .skipIt

/-- Voluntary gathering for dispersion (spec section 4.2 step 2, case c). -/
def ruleDispersion (devs : List (Option Device)) (mph now : Nat)
    (st : PlanState) (p i : Nat) : GDecision :=
  match ((rowAt st.table p)[i]?).join with
  | none => .skipIt
  | some _ =>
      if dispersionViolationAt devs st.table p i then
        (if dwellOk mph now st.last_part_moves p then .gatherIt else .deferIt)
      else .skipIt

/-- Voluntary gathering for weight (spec section 4.2 step 2, case b): the
slot's device is overweighted (negative parts wanted). -/
def ruleBalance (mph now : Nat) (st : PlanState) (p i : Nat) : GDecision :=
  match ((rowAt st.table p)[i]?).join with
  | none => .skipIt
  | some d =>
      if st.wants.getD d 0 < 0 then
        (if dwellOk mph now st.last_part_moves p then .gatherIt else .deferIt)
      else .skipIt

/-! ### Placement (spec section 4.2 step 4) -/

structure PlaceState where
  table : Table
  wants : List Int
deriving DecidableEq, Repr

/-- Tier preference of a candidate destination against the other replicas of
the partition: 0 when it shares no region with any of them, 1 when it shares
a region but no (region, zone) pair, 2 otherwise.  Lower is better. -/
def tierScore (devs : List (Option Device)) (others : List Nat)
    (d : Device) : Nat :=
  if others.any (fun j =>
      match devAt devs j with
      | some dj => dj.region == d.region && dj.zone == d.zone
      | none => false) then 2
  else if others.any (fun j =>
      match devAt devs j with
      | some dj => dj.region == d.region
      | none => false) then 1
  else 0

/-- Whether a destination is still inside its overload allowance: it either
wants more parts, or its excess is at most overload * ideal
(spec section 4.2 step 4). -/
def underCap (wants : List Int) (overload wone : Frac) (d : Device) : Bool :=
  0 < wants.getD d.id 0 ||
    Frac.le ⟨-(wants.getD d.id 0), 1⟩ (overload.mul (d.weight.mul wone))

/-- True when candidate b is a strictly better destination than a: better
tier, then higher remaining parts wanted, then seeded random tie-break. -/
def betterDev (devs : List (Option Device)) (others : List Nat)
    (wants : List Int) (seed : Nat) (a b : Device) : Bool :=
  let ta := tierScore devs others a
  let tb := tierScore devs others b
  if tb ≠ ta then tb < ta
  else if wants.getD b.id 0 ≠ wants.getD a.id 0 then
    wants.getD a.id 0 < wants.getD b.id 0
  else mix seed b.id < mix seed a.id

def chooseBest (devs : List (Option Device)) (others : List Nat)
    (wants : List Int) (seed : Nat) (first : Device) (rest : List Device) :
    Device :=
  rest.foldl (fun acc d =>
    if betterDev devs others wants seed acc d then d else acc) first

/-- Places one gathered slot: among the non-removed devices not already
holding another replica of the partition, prefer those inside the overload
allowance, then pick by tier, remaining parts wanted, and seeded tie-break
(spec section 4.2 step 4). -/
def pickDest (devs : List (Option Device)) (others : List Nat)
    (wants : List Int) (overload wone : Frac) (seed : Nat) (e : Device)
    (es : List Device) : Device :=
  match (e :: es).filter (underCap wants overload wone) with
  | [] => chooseBest devs others wants seed e es
  | c :: cs => chooseBest devs others wants seed c cs

def placeStep (devs : List (Option Device)) (active : List Device)
    (overload wone : Frac) (seed : Nat) (st : PlaceState) (s : Nat × Nat) :
    PlaceState :=
  match active.filter
      (fun d => !memB d.id (rowIds ((rowAt st.table s.1).set s.2 none))) with
  | [] => st
  | e :: es =>
      { table := setEntry st.table s.1 s.2 (some (pickDest devs
          (rowIds ((rowAt st.table s.1).set s.2 none)) st.wants overload wone
          (mix seed s.1) e es).id)
        wants := bumpWants st.wants (pickDest devs
          (rowIds ((rowAt st.table s.1).set s.2 none)) st.wants overload wone
          (mix seed s.1) e es).id (-1) }

def placeAll (devs : List (Option Device)) (active : List Device)
    (overload wone : Frac) (seed : Nat) (gathered : List (Nat × Nat))
    (st : PlaceState) : PlaceState :=
  gathered.foldl (placeStep devs active overload wone seed) st

/-! ### Rebalance (spec section 4.2) -/

inductive Outcome
  | fullyBalanced
  | movesDeferred
  | noop
deriving DecidableEq, Repr

structure RebalanceResult where
  builder : RingBuilder
  parts_moved : Nat
  removed_count : Nat
  outcome : Outcome
deriving DecidableEq, Repr

/-- Initial parts-wanted counters: round(ideal) minus the parts currently
assigned in the table (spec section 4.2 step 1). -/
def initWants (devs : List (Option Device)) (t : Table) (wone : Frac) :
    List Int :=
  (List.range devs.length).map (fun i =>
    match devAt devs i with
    | some d => ((d.weight.mul wone).roundNat : Int) - (countRefs t i : Int)
    | none => 0)

/-- Commit (spec section 4.2 step 5): parts and parts-wanted counters are
rewritten from the new table, and every pending-removal device that now has
zero assigned replicas is physically dropped, leaving a hole. -/
def commitDevs (devs : List (Option Device)) (t : Table) (wone : Frac) :
    List (Option Device) :=
  (List.range devs.length).map (fun i =>
    match devAt devs i with
    | none => none
    | some d =>
        let cnt := countRefs t i
        if d.pending_removal && cnt == 0 then none
        else some { d with parts := cnt
                           parts_wanted :=
                             ((d.weight.mul wone).roundNat : Int) - (cnt : Int) })

def removedCount (devs newDevs : List (Option Device)) : Nat :=
  (List.range devs.length).countP (fun i =>
    (devAt devs i).isSome && (devAt newDevs i).isNone)

/-- Starting plan state of a rebalance (spec section 4.2 step 1): the
current table and move history, with fresh parts-wanted counters. -/
def planStart (b : RingBuilder) : PlanState :=
  { table := b.replica2part2dev
    last_part_moves := b.last_part_moves
    wants := initWants b.devs b.replica2part2dev (weight_of_one_part b)
    gathered := []
    deferredCount := 0 }

/-- Candidate gathering (spec section 4.2 steps 2 and 3): the mandatory
pass, then the dispersion pass, then the weight pass, each over a seeded
pseudo-random order of all slots. -/
def planGather (b : RingBuilder) (seed now : Nat) : PlanState :=
  gatherPass now (ruleBalance b.min_part_hours now)
    (seededOrder (mix seed 3) (allSlots b.replicas b.parts))
    (gatherPass now (ruleDispersion b.devs b.min_part_hours now)
      (seededOrder (mix seed 2) (allSlots b.replicas b.parts))
      (gatherPass now (ruleMandatory b.devs)
        (seededOrder (mix seed 1) (allSlots b.replicas b.parts))
        (planStart b)))

/-- Placement of all gathered slots (spec section 4.2 step 4). -/
def planPlace (b : RingBuilder) (seed now : Nat) : PlaceState :=
  placeAll b.devs (activeDevs b.devs) b.overload (weight_of_one_part b)
    (mix seed 4) (planGather b seed now).gathered
    { table := (planGather b seed now).table
      wants := (planGather b seed now).wants }

/-- Commit (spec section 4.2 steps 5 and 6). -/
def rebalanceCommit (b : RingBuilder) (seed now : Nat) : RebalanceResult :=
  { builder :=
      { b with
        devs := commitDevs b.devs (planPlace b seed now).table
          (weight_of_one_part b)
        replica2part2dev := (planPlace b seed now).table
        last_part_moves := (planGather b seed now).last_part_moves
        version := b.version + 1
        dispersion := some (dispersionScore
          (commitDevs b.devs (planPlace b seed now).table
            (weight_of_one_part b))
          b.replicas b.parts (planPlace b seed now).table) }
    parts_moved := (planGather b seed now).gathered.length
    removed_count := removedCount b.devs
      (commitDevs b.devs (planPlace b seed now).table (weight_of_one_part b))
    outcome :=
      if (planGather b seed now).gathered.length = 0 then .noop
      else if 0 < (planGather b seed now).deferredCount then .movesDeferred
      else .fullyBalanced }

/-- Rebalance (spec section 4.2): capacity checks, candidate gathering in
three passes (mandatory, dispersion, weight) over seeded pseudo-random
orders, greedy placement, and commit.  Pure in the builder state, the seed
and the current time. -/
def rebalance (b : RingBuilder) (seed now : Nat) :
    Except RingError RebalanceResult :=
  if (activeDevs b.devs).length = 0 then .error .noDevices
  else if Frac.le (total_weight b) Frac.zero then .error .noDevices
  else if (activeDevs b.devs).length < repMax b.replicas b.parts then
    .error .tooFewDevicesForReplicas
  else .ok (rebalanceCommit b seed now)

/-! ### CLI layer (spec section 6)

Exit codes: 0 success, 1 warning, 2 error.  After a completed rebalance the
caller is warned either when no partition could be reassigned and no device
was removed, or when the residual balance exceeds the tolerance of 5 and the
overload allowance (the rebalance/repush advisory, the spec's partial
outcome). -/

def EXIT_SUCCESS : Nat := 0

def EXIT_WARNING : Nat := 1

def EXIT_ERROR : Nat := 2

structure CliResult where
  exit : Nat
  builder : RingBuilder
  parts_moved : Nat
deriving DecidableEq, Repr

def cli_rebalance (b : RingBuilder) (seed now : Nat) : CliResult :=
  match rebalance b seed now with
  | .error _ => ⟨EXIT_ERROR, b, 0⟩
  | .ok r =>
      if r.parts_moved = 0 && r.removed_count = 0 then
        ⟨EXIT_WARNING, r.builder, 0⟩
      else if Frac.lt (Frac.ofNat 5) (get_balance r.builder) &&
          Frac.lt r.builder.overload
            ((get_balance r.builder).divQ (Frac.ofNat 100)) then
        ⟨EXIT_WARNING, r.builder, r.parts_moved⟩
      else ⟨EXIT_SUCCESS, r.builder, r.parts_moved⟩

def cli_set_overload (b : RingBuilder) (q : Frac) : Nat × RingBuilder :=
  match set_overload b q with
  | .error _ => (EXIT_ERROR, b)
  | .ok b2 => (EXIT_SUCCESS, b2)

/-! ### BuilderStateStore (spec section 4.5)

The persisted form carries the full state verbatim; assignment-table entries
are stored as plain integers with the sentinel NONE_DEV for unassigned
slots, and per-partition move times as shifted naturals. -/

def NONE_DEV : Nat := 65535

/-- Flat persisted device record. -/
structure DevRecord where
  f1 : Nat
  f2 : Nat
  f3 : Nat
  f4 : String
  f5 : Nat
  f6 : String
  f7 : Nat
  f8 : String
  f9 : String
  f10 : Frac
  f11 : Nat
  f12 : Int
  f13 : Bool
deriving DecidableEq, Repr

structure BuilderFile where
  part_power : Nat
  replicas : Frac
  min_part_hours : Nat
  overload : Frac
  version : Nat
  dispersion : Option Frac
  devs : List (Option DevRecord)
  table : List (List Nat)
  last_part_moves : List Nat
deriving DecidableEq, Repr

def encodeDev (d : Device) : DevRecord :=
  ⟨d.id, d.region, d.zone, d.ip, d.port, d.replication_ip,
   d.replication_port, d.device, d.meta, d.weight, d.parts, d.parts_wanted,
   d.pending_removal⟩

def decodeDev (t : DevRecord) : Device :=
  { id := t.f1, region := t.f2, zone := t.f3, ip := t.f4, port := t.f5,
    replication_ip := t.f6, replication_port := t.f7, device := t.f8,
    meta := t.f9, weight := t.f10, parts := t.f11, parts_wanted := t.f12,
    pending_removal := t.f13 }

def encodeEntry (e : Option Nat) : Nat :=
  match e with
  | none => NONE_DEV
  | some i => i

def decodeEntry (n : Nat) : Option Nat :=
  if n = NONE_DEV then none else some n

def encodeMove (e : Option Nat) : Nat :=
  match e with
  | none => 0
  | some t => t + 1

def decodeMove (n : Nat) : Option Nat :=
  if n = 0 then none else some (n - 1)

def save (b : RingBuilder) : BuilderFile :=
  { part_power := b.part_power
    replicas := b.replicas
    min_part_hours := b.min_part_hours
    overload := b.overload
    version := b.version
    dispersion := b.dispersion
    devs := b.devs.map (Option.map encodeDev)
    table := b.replica2part2dev.map (fun row => row.map encodeEntry)
    last_part_moves := b.last_part_moves.map encodeMove }

/-- Loads a persisted builder, failing on a structurally corrupt file
(table or move-history length not matching the partition count). -/
def load (f : BuilderFile) : Option RingBuilder :=
  if f.table.length == 2 ^ f.part_power &&
      f.last_part_moves.length == 2 ^ f.part_power then
    some
      { part_power := f.part_power
        replicas := f.replicas
        min_part_hours := f.min_part_hours
        overload := f.overload
        version := f.version
        dispersion := f.dispersion
        devs := f.devs.map (Option.map decodeDev)
        replica2part2dev := f.table.map (fun row => row.map decodeEntry)
        last_part_moves := f.last_part_moves.map decodeMove }
  else none

/-! ### Structural well-formedness

The invariants every builder reachable through the operations satisfies:
canonical table shape, pairwise distinct replica devices, move history of
the right length, and ids equal to registry indexes. -/

def idsIndexed (devs : List (Option Device)) : Bool :=
  (List.range devs.length).all (fun i =>
    match devAt devs i with
    | none => true
    | some d => d.id == i)

def RingBuilder.wfB (b : RingBuilder) : Bool :=
  b.replica2part2dev.length == b.parts &&
  (List.range b.parts).all
    (fun p => (rowAt b.replica2part2dev p).length == b.replicaCountFor p) &&
  b.replica2part2dev.all (fun row => nodupB (rowIds row)) &&
  b.last_part_moves.length == b.parts &&
  idsIndexed b.devs

/-- Table entries small enough for the NONE_DEV sentinel encoding. -/
def tableIdsOkB (b : RingBuilder) : Bool :=
  b.replica2part2dev.all (fun row => (rowIds row).all (fun i => i < NONE_DEV))

/-! ### Concrete builders from the test suite -/

def mkDev (region zone : Nat) (ip : String) (port : Nat) (name meta : String)
    (w : Frac) : Device :=
  { id := 0, region := region, zone := zone, ip := ip, port := port,
    replication_ip := ip, replication_port := port, device := name,
    meta := meta, weight := w, parts := 0, parts_wanted := 0,
    pending_removal := false }

def tryAdd (b : RingBuilder) (d : Device) : RingBuilder :=
  match add_dev b d none with
  | .ok b2 => b2
  | .error _ => b

/-- The four-device sample ring of the test suite (part power pp,
3 replicas, min_part_hours 1, four devices of weight 100 in four distinct
regions and zones). -/
def create_sample_ring (pp : Nat) : RingBuilder :=
  let b0 := RingBuilder.create pp (Frac.ofNat 3) 1
  let b1 := tryAdd b0 (mkDev 0 0 "127.0.0.1" 6200 "sda1" "some meta data"
    (Frac.ofNat 100))
  let b2 := tryAdd b1 (mkDev 1 1 "127.0.0.2" 6201 "sda2" "" (Frac.ofNat 100))
  let b3 := tryAdd b2 (mkDev 2 2 "127.0.0.3" 6202 "sdc3" "" (Frac.ofNat 100))
  tryAdd b3 (mkDev 3 3 "127.0.0.4" 6203 "sdd4" "" (Frac.ofNat 100))

def sampleRing6 : RingBuilder := create_sample_ring 6

/-! ### Helper lemmas about rows and slots -/

theorem rowIds_set_none_sublist (row : List (Option Nat)) (i : Nat) :
    List.Sublist (rowIds (row.set i none)) (rowIds row) := by
  induction row generalizing i with
  | nil => simp [rowIds]
  | cons e rest ih =>
      cases i with
      | zero =>
          cases e with
          | none => simp [rowIds, List.set]
          | some d =>
              simp only [List.set, rowIds, List.filterMap_cons, id_eq]
              exact List.Sublist.cons d (List.Sublist.refl _)
      | succ j =>
          cases e with
          | none => simpa [rowIds, List.set] using ih j
          | some d => simpa [rowIds, List.set] using (ih j).cons₂ d

theorem rowIds_length_le (row : List (Option Nat)) :
    (rowIds row).length ≤ row.length :=
  List.length_filterMap_le id row

theorem rowIds_set_none_length (row : List (Option Nat)) (i : Nat)
    (h : i < row.length) :
    (rowIds (row.set i none)).length + 1 ≤ row.length := by
  induction row generalizing i with
  | nil => cases h
  | cons e rest ih =>
      cases i with
      | zero =>
          simp only [List.set, rowIds, List.filterMap_cons, id_eq, List.length_cons]
          exact Nat.succ_le_succ (rowIds_length_le rest)
      | succ j =>
          have hj : j < rest.length := by simpa using h
          cases e with
          | none =>
              simp only [List.set, rowIds, List.filterMap_cons, id_eq, List.length_cons]
              exact Nat.le_succ_of_le (ih j hj)
          | some d =>
              simp only [List.set, rowIds, List.filterMap_cons, id_eq,
                List.length_cons]
              have h2 := ih j hj
              simp only [rowIds] at h2
              omega

theorem mem_rowIds_set_some (row : List (Option Nat)) (i v x : Nat)
    (hx : x ∈ rowIds (row.set i (some v))) :
    x = v ∨ x ∈ rowIds (row.set i none) := by
  induction row generalizing i with
  | nil => simp [rowIds] at hx
  | cons e rest ih =>
      cases i with
      | zero =>
          simp only [List.set, rowIds, List.filterMap_cons, id_eq, List.mem_cons] at hx ⊢
          rcases hx with h | h
          · exact Or.inl h
          · exact Or.inr h
      | succ j =>
          cases e with
          | none =>
              simp only [List.set, rowIds, List.filterMap_cons, id_eq] at hx ⊢
              exact ih j hx
          | some d =>
              simp only [List.set, rowIds, List.filterMap_cons, id_eq,
                List.mem_cons] at hx ⊢
              rcases hx with h | h
              · exact Or.inr (Or.inl h)
              · rcases ih j h with h2 | h2
                · exact Or.inl h2
                · exact Or.inr (Or.inr h2)

theorem rowIds_set_some_nodup (row : List (Option Nat)) (i v : Nat)
    (hnd : (rowIds (row.set i none)).Nodup)
    (hv : v ∉ rowIds (row.set i none)) :
    (rowIds (row.set i (some v))).Nodup := by
  induction row generalizing i with
  | nil => simp [rowIds]
  | cons e rest ih =>
      cases i with
      | zero =>
          simp only [List.set, rowIds, List.filterMap_cons, id_eq] at hnd hv ⊢
          exact List.Nodup.cons hv hnd
      | succ j =>
          cases e with
          | none =>
              simp only [List.set, rowIds, List.filterMap_cons, id_eq] at hnd hv ⊢
              exact ih j hnd hv
          | some d =>
              simp only [List.set, rowIds, List.filterMap_cons, id_eq,
                List.nodup_cons, List.mem_cons] at hnd hv ⊢
              refine ⟨?_, ih j hnd.2 (fun hm => hv (Or.inr hm))⟩
              intro hd
              rcases mem_rowIds_set_some rest j v d hd with h | h
              · exact hv (Or.inl h.symm)
              · exact hnd.1 h

theorem mem_allSlots {R : Frac} {parts : Nat} {s : Nat × Nat} :
    s ∈ allSlots R parts ↔ s.1 < parts ∧ s.2 < repCount R parts s.1 := by
  cases s with
  | mk p i =>
      simp only [allSlots, List.mem_flatMap, List.mem_range, List.mem_map,
        Prod.mk.injEq]
      constructor
      · rintro ⟨q, hq, j, hj, rfl, rfl⟩
        exact ⟨hq, hj⟩
      · rintro ⟨hp, hi⟩
        exact ⟨p, hp, i, hi, rfl, rfl⟩

/-! Lemmas about the registry views. -/

theorem devAt_lt_length {devs : List (Option Device)} {i : Nat} {d : Device}
    (h : devAt devs i = some d) : i < devs.length := by
  by_contra hge
  have : devs[i]? = none := List.getElem?_eq_none (by omega)
  simp [devAt, this] at h

theorem mem_activeIds {devs : List (Option Device)} {i : Nat} :
    i ∈ activeIds devs ↔
      ∃ d, devAt devs i = some d ∧ d.pending_removal = false := by
  simp only [activeIds, List.mem_filter, List.mem_range]
  constructor
  · rintro ⟨hlen, hmatch⟩
    cases hd : devAt devs i with
    | none => simp [hd] at hmatch
    | some d =>
        refine ⟨d, rfl, ?_⟩
        simp [hd] at hmatch
        exact hmatch
  · rintro ⟨d, hd, hp⟩
    exact ⟨devAt_lt_length hd, by simp [hd, hp]⟩

theorem activeIds_nodup (devs : List (Option Device)) :
    (activeIds devs).Nodup :=
  (List.nodup_range _).filter _

theorem mem_activeDevs {devs : List (Option Device)} {d : Device}
    (h : d ∈ activeDevs devs) :
    ∃ i, devAt devs i = some d ∧ d.pending_removal = false := by
  rcases List.mem_filterMap.mp h with ⟨i, hi, hdev⟩
  rcases mem_activeIds.mp hi with ⟨d2, hd2, hp⟩
  rw [hdev] at hd2
  cases hd2
  exact ⟨i, hdev, hp⟩

/-- Under idsIndexed, the ids of the active devices are exactly activeIds,
hence duplicate-free. -/
theorem idsIndexed_devAt {devs : List (Option Device)}
    (hids : idsIndexed devs = true) {i : Nat} {d : Device}
    (h : devAt devs i = some d) : d.id = i := by
  have hlen := devAt_lt_length h
  have := (List.all_eq_true.mp hids) i (List.mem_range.mpr hlen)
  simpa [h] using this

theorem filterMap_devAt_map_id {devs : List (Option Device)}
    (hids : idsIndexed devs = true) :
    ∀ l : List Nat, (∀ i ∈ l, (devAt devs i).isSome) →
      ((l.filterMap (devAt devs)).map (fun d => d.id)) = l := by
  intro l
  induction l with
  | nil => intro _; simp
  | cons i rest ih =>
      intro hall
      have hi : (devAt devs i).isSome := hall i (List.mem_cons_self _ _)
      cases hd : devAt devs i with
      | none => rw [hd] at hi; simp at hi
      | some d =>
          have hrest := ih (fun j hj => hall j (List.mem_cons_of_mem _ hj))
          simp only [List.filterMap_cons, hd, List.map_cons, hrest,
            List.cons.injEq, and_true]
          exact idsIndexed_devAt hids hd

theorem activeDevs_map_id {devs : List (Option Device)}
    (hids : idsIndexed devs = true) :
    (activeDevs devs).map (fun d => d.id) = activeIds devs := by
  rw [activeDevs]
  refine filterMap_devAt_map_id hids (activeIds devs) ?_
  intro i hi
  rcases mem_activeIds.mp hi with ⟨d, hd, _⟩
  simp [hd]

theorem activeDevs_length {devs : List (Option Device)}
    (hids : idsIndexed devs = true) :
    (activeDevs devs).length = (activeIds devs).length := by
  have := congrArg List.length (activeDevs_map_id hids)
  simpa using this

theorem activeDevs_ids_nodup {devs : List (Option Device)}
    (hids : idsIndexed devs = true) :
    ((activeDevs devs).map (fun d => d.id)).Nodup := by
  rw [activeDevs_map_id hids]
  exact activeIds_nodup devs

/-! ### Table update lemmas -/

theorem set_out_of_range {α : Type _} (l : List α) (n : Nat) (v : α)
    (h : l.length ≤ n) : l.set n v = l := by
  induction l generalizing n with
  | nil => simp
  | cons a rest ih =>
      cases n with
      | zero => simp at h
      | succ m => simp only [List.set]; rw [ih m (by simpa using h)]

theorem setEntry_length (t : Table) (p i : Nat) (v : Option Nat) :
    (setEntry t p i v).length = t.length := by
  simp [setEntry]

theorem rowAt_setEntry_self (t : Table) (p i : Nat) (v : Option Nat)
    (h : p < t.length) :
    rowAt (setEntry t p i v) p = (rowAt t p).set i v := by
  simp only [setEntry, rowAt]
  rw [List.getElem?_set_self (by simpa using h)]
  rfl

theorem rowAt_setEntry_ne (t : Table) (p i q : Nat) (v : Option Nat)
    (h : q ≠ p) : rowAt (setEntry t p i v) q = rowAt t q := by
  simp only [setEntry, rowAt]
  rw [List.getElem?_set_ne (fun hqp => h hqp.symm)]

theorem rowAt_out_of_range (t : Table) (p : Nat) (h : t.length ≤ p) :
    rowAt t p = [] := by
  simp [rowAt, List.getElem?_eq_none h]

theorem setEntry_out_of_range (t : Table) (p i : Nat) (v : Option Nat)
    (h : t.length ≤ p) : setEntry t p i v = t := by
  simp [setEntry, set_out_of_range _ _ _ h]

/-! ### Plan-state invariants -/

/-- The structural invariant carried through the whole planning phase:
canonical shape, pairwise distinct assigned devices per partition, move
history of the right length, and only valid gathered slots. -/
def PBase (b : RingBuilder) (st : PlanState) : Prop :=
  st.table.length = b.parts ∧
  (∀ p, p < b.parts → (rowAt st.table p).length = b.replicaCountFor p) ∧
  (∀ p, (rowIds (rowAt st.table p)).Nodup) ∧
  st.last_part_moves.length = b.parts ∧
  (∀ s ∈ st.gathered, s.1 < b.parts ∧ s.2 < b.replicaCountFor s.1)

/-- A slot is clean when, if assigned, it references a present, non-removed
device. -/
def cleanSlot (devs : List (Option Device)) (t : Table) (s : Nat × Nat) :
    Prop :=
  ∀ d, (rowAt t s.1)[s.2]? = some (some d) →
    ∃ dev, devAt devs d = some dev ∧ dev.pending_removal = false

/-- An unassigned slot is accounted for in the gathered list. -/
def slotNoneIn (t : Table) (g : List (Nat × Nat)) (s : Nat × Nat) : Prop :=
  (rowAt t s.1)[s.2]? = some none → s ∈ g

theorem gatherStep_cases (now : Nat) (rule : PlanState → Nat → Nat → GDecision)
    (st : PlanState) (s : Nat × Nat) :
    gatherStep now rule st s = st ∨
    gatherStep now rule st s = { st with deferredCount := st.deferredCount + 1 } ∨
    gatherStep now rule st s =
      { st with
        table := setEntry st.table s.1 s.2 none
        last_part_moves := st.last_part_moves.set s.1 (some now)
        wants :=
          match ((rowAt st.table s.1)[s.2]?).join with
          | some d => bumpWants st.wants d 1
          | none => st.wants
        gathered := st.gathered ++ [s] } := by
  unfold gatherStep
  cases rule st s.1 s.2 with
  | skipIt => exact Or.inl rfl
  | deferIt => exact Or.inr (Or.inl rfl)
  | gatherIt => exact Or.inr (Or.inr rfl)

theorem gatherStep_pbase (b : RingBuilder) (now : Nat)
    (rule : PlanState → Nat → Nat → GDecision) (st : PlanState)
    (s : Nat × Nat) (hs : s.1 < b.parts ∧ s.2 < b.replicaCountFor s.1)
    (h : PBase b st) : PBase b (gatherStep now rule st s) := by
  rcases gatherStep_cases now rule st s with heq | heq | heq <;> rw [heq]
  · exact h
  · exact ⟨h.1, h.2.1, h.2.2.1, h.2.2.2.1, h.2.2.2.2⟩
  · obtain ⟨tlen, rlen, nodup, lmlen, gsub⟩ := h
    refine ⟨by simp [setEntry_length, tlen], ?_, ?_, by simp [lmlen], ?_⟩
    · intro p hp
      by_cases hps : p = s.1
      · subst hps
        rw [rowAt_setEntry_self _ _ _ _ (by omega), List.length_set]
        exact rlen s.1 hp
      · rw [rowAt_setEntry_ne _ _ _ _ _ hps]
        exact rlen p hp
    · intro p
      by_cases hps : p = s.1
      · subst hps
        by_cases hin : s.1 < st.table.length
        · rw [rowAt_setEntry_self _ _ _ _ hin]
          exact (rowIds_set_none_sublist _ _).nodup (nodup s.1)
        · rw [setEntry_out_of_range _ _ _ _ (by omega)]
          exact nodup s.1
      · rw [rowAt_setEntry_ne _ _ _ _ _ hps]
        exact nodup p
    · intro x hx
      rcases List.mem_append.mp hx with hx | hx
      · exact gsub x hx
      · rcases List.mem_singleton.mp hx with rfl
        exact hs

/-- A gather step leaves every other slot entry untouched, and writes only
an unassigned marker at its own slot while recording it as gathered. -/
theorem gatherStep_entry_ne (now : Nat)
    (rule : PlanState → Nat → Nat → GDecision) (st : PlanState)
    (s y : Nat × Nat) (hne : y ≠ s) :
    (rowAt (gatherStep now rule st s).table y.1)[y.2]? =
      (rowAt st.table y.1)[y.2]? := by
  rcases gatherStep_cases now rule st s with heq | heq | heq <;> rw [heq]
  by_cases hpy : y.1 = s.1
  · rw [hpy, ]
    by_cases hin : s.1 < st.table.length
    · rw [rowAt_setEntry_self _ _ _ _ hin]
      have : y.2 ≠ s.2 := by
        intro h2
        exact hne (Prod.ext hpy h2)
      rw [List.getElem?_set_ne (fun h => this h.symm)]
    · rw [setEntry_out_of_range _ _ _ _ (by omega)]
  · rw [rowAt_setEntry_ne _ _ _ _ _ hpy]

theorem gatherStep_gathered_mono (now : Nat)
    (rule : PlanState → Nat → Nat → GDecision) (st : PlanState)
    (s : Nat × Nat) :
    ∀ y ∈ st.gathered, y ∈ (gatherStep now rule st s).gathered := by
  intro y hy
  rcases gatherStep_cases now rule st s with heq | heq | heq <;> rw [heq]
  · exact hy
  · exact hy
  · exact List.mem_append.mpr (Or.inl hy)

def gatherSlotOK (devs : List (Option Device)) (st : PlanState)
    (s : Nat × Nat) : Prop :=
  cleanSlot devs st.table s ∧ slotNoneIn st.table st.gathered s

theorem gatherStep_slotOK_mono (devs : List (Option Device)) (now : Nat)
    (rule : PlanState → Nat → Nat → GDecision) (st : PlanState)
    (s y : Nat × Nat) (h : gatherSlotOK devs st y) :
    gatherSlotOK devs (gatherStep now rule st s) y := by
  by_cases hys : y = s
  · subst hys
    rcases gatherStep_cases now rule st y with heq | heq | heq <;> rw [heq]
    · exact h
    · exact h
    · by_cases hin : y.1 < st.table.length
      · constructor
        · intro d hd
          rw [rowAt_setEntry_self _ _ _ _ hin] at hd
          by_cases hj : y.2 < (rowAt st.table y.1).length
          · rw [List.getElem?_set_self (by simpa using hj)] at hd
            simp at hd
          · rw [set_out_of_range _ _ _ (by omega)] at hd
            exact h.1 d hd
        · intro _
          exact List.mem_append.mpr (Or.inr (List.mem_singleton.mpr rfl))
      · constructor
        · intro d hd
          rw [setEntry_out_of_range _ _ _ _ (by omega)] at hd
          exact h.1 d hd
        · intro hd
          rw [setEntry_out_of_range _ _ _ _ (by omega)] at hd
          exact List.mem_append.mpr (Or.inl (h.2 hd))
  · have hent := gatherStep_entry_ne now rule st s y hys
    constructor
    · intro d hd
      rw [hent] at hd
      exact h.1 d hd
    · intro hd
      rw [hent] at hd
      exact gatherStep_gathered_mono now rule st s y (h.2 hd)

/-- Processing a slot in the mandatory pass makes it clean and accounted. -/
theorem gatherStep_mandatory_est (devs : List (Option Device)) (now : Nat)
    (st : PlanState) (s : Nat × Nat) :
    gatherSlotOK devs (gatherStep now (ruleMandatory devs) st s) s := by
  cases hrule : ruleMandatory devs st s.1 s.2 with
  | gatherIt =>
      unfold gatherStep
      rw [hrule]
      by_cases hin : s.1 < st.table.length
      · constructor
        · intro d hd
          simp only at hd
          rw [rowAt_setEntry_self _ _ _ _ hin] at hd
          by_cases hj : s.2 < (rowAt st.table s.1).length
          · rw [List.getElem?_set_self (by simpa using hj)] at hd
            simp at hd
          · rw [set_out_of_range _ _ _ (by omega)] at hd
            exfalso
            unfold ruleMandatory at hrule
            rw [List.getElem?_eq_none (by omega)] at hrule
            simp [Option.join] at hrule
        · intro _
          exact List.mem_append.mpr (Or.inr (List.mem_singleton.mpr rfl))
      · exfalso
        unfold ruleMandatory at hrule
        rw [rowAt_out_of_range _ _ (by omega)] at hrule
        simp [Option.join] at hrule
  | deferIt =>
      exfalso
      unfold ruleMandatory at hrule
      cases hj : ((rowAt st.table s.1)[s.2]?) with
      | none => rw [hj] at hrule; simp [Option.join] at hrule
      | some e =>
          cases e with
          | none => rw [hj] at hrule; simp [Option.join] at hrule
          | some d =>
              rw [hj] at hrule
              simp only [Option.join, Option.bind, id_eq] at hrule
              cases hdev : devAt devs d with
              | none => simp [hdev] at hrule
              | some dev =>
                  simp only [hdev] at hrule
                  by_cases hp : dev.pending_removal <;> simp [hp] at hrule
  | skipIt =>
      unfold gatherStep
      rw [hrule]
      unfold ruleMandatory at hrule
      cases hj : ((rowAt st.table s.1)[s.2]?) with
      | none =>
          constructor
          · intro d hd; rw [hj] at hd; cases hd
          · intro hd; rw [hj] at hd; cases hd
      | some e =>
          cases e with
          | none => rw [hj] at hrule; simp [Option.join] at hrule
          | some d =>
              rw [hj] at hrule
              simp only [Option.join, Option.bind, id_eq] at hrule
              cases hdev : devAt devs d with
              | none => simp [hdev] at hrule
              | some dev =>
                  simp only [hdev] at hrule
                  by_cases hp : dev.pending_removal
                  · simp [hp] at hrule
                  · constructor
                    · intro d2 hd2
                      rw [hj] at hd2
                      cases hd2
                      exact ⟨dev, hdev, by simpa using hp⟩
                    · intro hd; rw [hj] at hd; cases hd

theorem gatherPass_pbase (b : RingBuilder) (now : Nat)
    (rule : PlanState → Nat → Nat → GDecision) (order : List (Nat × Nat))
    (st : PlanState)
    (horder : ∀ s ∈ order, s.1 < b.parts ∧ s.2 < b.replicaCountFor s.1)
    (h : PBase b st) : PBase b (gatherPass now rule order st) :=
  foldl_inv_only order st
    (fun s2 x hx hq => gatherStep_pbase b now rule s2 x (horder x hx) hq) h

theorem gatherPass_slotOK_mono (devs : List (Option Device)) (now : Nat)
    (rule : PlanState → Nat → Nat → GDecision) (order : List (Nat × Nat))
    (st : PlanState) (y : Nat × Nat) (h : gatherSlotOK devs st y) :
    gatherSlotOK devs (gatherPass now rule order st) y :=
  foldl_inv_only order st
    (fun s2 x _ hq => gatherStep_slotOK_mono devs now rule s2 x y hq) h

/-- After the mandatory pass, every slot it processed is clean and
accounted. -/
theorem gatherPass_mandatory_est (devs : List (Option Device)) (now : Nat)
    (order : List (Nat × Nat)) (st : PlanState) :
    ∀ y ∈ order,
      gatherSlotOK devs (gatherPass now (ruleMandatory devs) order st) y :=
  foldl_inv_est (Q := fun _ => True) order st (fun _ _ _ _ => trivial)
    (fun s2 x _ _ => gatherStep_mandatory_est devs now s2 x)
    (fun s2 x y _ _ hp => gatherStep_slotOK_mono devs now _ s2 x y hp)
    trivial

theorem gatherPass_gathered_mono (now : Nat)
    (rule : PlanState → Nat → Nat → GDecision) (order : List (Nat × Nat))
    (st : PlanState) :
    ∀ y ∈ st.gathered, y ∈ (gatherPass now rule order st).gathered := by
  intro y hy
  exact foldl_inv_only (Q := fun s2 => y ∈ s2.gathered) order st
    (fun s2 x _ hq => gatherStep_gathered_mono now rule s2 x y hq) hy

/-- A pass that gathered nothing new left the table, the move history, the
wants counters and the gathered list untouched. -/
theorem gatherPass_no_gather (now : Nat)
    (rule : PlanState → Nat → Nat → GDecision) (order : List (Nat × Nat))
    (st : PlanState)
    (hlen : (gatherPass now rule order st).gathered.length =
      st.gathered.length) :
    (gatherPass now rule order st).table = st.table ∧
    (gatherPass now rule order st).last_part_moves = st.last_part_moves ∧
    (gatherPass now rule order st).wants = st.wants ∧
    (gatherPass now rule order st).gathered = st.gathered := by
  have key : (gatherPass now rule order st).table = st.table ∧
      (gatherPass now rule order st).last_part_moves = st.last_part_moves ∧
      (gatherPass now rule order st).wants = st.wants ∧
      (gatherPass now rule order st).gathered = st.gathered ∨
      st.gathered.length < (gatherPass now rule order st).gathered.length := by
    refine foldl_inv_only (Q := fun s2 =>
      (s2.table = st.table ∧ s2.last_part_moves = st.last_part_moves ∧
        s2.wants = st.wants ∧ s2.gathered = st.gathered) ∨
      st.gathered.length < s2.gathered.length) order st ?_ (Or.inl ⟨rfl, rfl, rfl, rfl⟩)
    intro s2 x _ hq
    rcases gatherStep_cases now rule s2 x with heq | heq | heq <;> rw [heq]
    · exact hq
    · exact hq
    · rcases hq with ⟨h1, h2, h3, h4⟩ | h5
      · right
        simp [h4]
      · right
        simp only [List.length_append, List.length_cons, List.length_nil]
        omega
  rcases key with h | h
  · exact h
  · omega

/-- A pass whose rule never gathers (given the fixed table, move history and
wants of the incoming state) is a no-op up to deferral counting. -/
theorem gatherPass_quiescent (now : Nat)
    (rule : PlanState → Nat → Nat → GDecision) (order : List (Nat × Nat))
    (st : PlanState)
    (hrule : ∀ s2 : PlanState, s2.table = st.table →
      s2.last_part_moves = st.last_part_moves → s2.wants = st.wants →
      ∀ s ∈ order, rule s2 s.1 s.2 ≠ .gatherIt) :
    (gatherPass now rule order st).table = st.table ∧
    (gatherPass now rule order st).last_part_moves = st.last_part_moves ∧
    (gatherPass now rule order st).wants = st.wants ∧
    (gatherPass now rule order st).gathered = st.gathered := by
  refine foldl_inv_only (Q := fun s2 =>
    s2.table = st.table ∧ s2.last_part_moves = st.last_part_moves ∧
      s2.wants = st.wants ∧ s2.gathered = st.gathered) order st ?_
    ⟨rfl, rfl, rfl, rfl⟩
  intro s2 x hx hq
  have hng := hrule s2 hq.1 hq.2.1 hq.2.2.1 x hx
  unfold gatherStep
  cases hr : rule s2 x.1 x.2 with
  | skipIt => exact hq
  | deferIt => exact ⟨hq.1, hq.2.1, hq.2.2.1, hq.2.2.2⟩
  | gatherIt => exact absurd hr hng

/-! ### Placement lemmas -/

theorem chooseBest_mem (devs : List (Option Device)) (others : List Nat)
    (wants : List Int) (seed : Nat) (first : Device) (rest : List Device) :
    chooseBest devs others wants seed first rest ∈ first :: rest := by
  unfold chooseBest
  refine foldl_inv_only (Q := fun d => d ∈ first :: rest) rest first ?_
    (List.mem_cons_self _ _)
  intro acc x hx hacc
  by_cases hb : betterDev devs others wants seed acc x
  · simp only [hb, if_true]
    exact List.mem_cons_of_mem _ hx
  · simp only [hb]
    simpa using hacc

theorem pickDest_mem (devs : List (Option Device)) (others : List Nat)
    (wants : List Int) (ov wone : Frac) (seed : Nat) (e : Device)
    (es : List Device) :
    pickDest devs others wants ov wone seed e es ∈ e :: es := by
  unfold pickDest
  cases hcap : (e :: es).filter (underCap wants ov wone) with
  | nil => exact chooseBest_mem _ _ _ _ e es
  | cons c cs =>
      have hc1 : chooseBest devs others wants seed c cs ∈ c :: cs :=
        chooseBest_mem _ _ _ _ c cs
      rw [← hcap] at hc1
      exact List.mem_of_mem_filter hc1

theorem placeStep_cases (devs : List (Option Device)) (active : List Device)
    (ov wone : Frac) (seed : Nat) (st : PlaceState) (s : Nat × Nat) :
    placeStep devs active ov wone seed st s = st ∨
    ∃ pick : Device, pick ∈ active ∧
      memB pick.id (rowIds ((rowAt st.table s.1).set s.2 none)) = false ∧
      placeStep devs active ov wone seed st s =
        { table := setEntry st.table s.1 s.2 (some pick.id)
          wants := bumpWants st.wants pick.id (-1) } := by
  unfold placeStep
  cases helig : active.filter
      (fun d => !memB d.id (rowIds ((rowAt st.table s.1).set s.2 none))) with
  | nil => exact Or.inl rfl
  | cons e es =>
      right
      have hsub : ∀ d : Device, d ∈ e :: es → d ∈ active ∧
          memB d.id (rowIds ((rowAt st.table s.1).set s.2 none)) = false := by
        intro d hd
        rw [← helig] at hd
        refine ⟨List.mem_of_mem_filter hd, ?_⟩
        have := List.of_mem_filter hd
        simpa using this
      have hp := hsub _ (pickDest_mem devs
        (rowIds ((rowAt st.table s.1).set s.2 none)) st.wants ov wone
        (mix seed s.1) e es)
      exact ⟨_, hp.1, hp.2, rfl⟩

/-- Shape and distinctness invariant through placement. -/
def QPlace (b : RingBuilder) (st : PlaceState) : Prop :=
  st.table.length = b.parts ∧
  (∀ p, p < b.parts → (rowAt st.table p).length = b.replicaCountFor p) ∧
  (∀ p, (rowIds (rowAt st.table p)).Nodup)

/-- Whenever at least ceil(R) non-removed devices exist, every in-range slot
has an eligible destination, so a placement step never falls through: it
writes a present, non-removed device not holding another replica of the
partition (spec section 4.2 step 4). -/
theorem placeStep_assigns (b : RingBuilder) (devs : List (Option Device))
    (ov wone : Frac) (seed : Nat) (st : PlaceState) (s : Nat × Nat)
    (hq : QPlace b st) (hs1 : s.1 < b.parts)
    (hs2 : s.2 < b.replicaCountFor s.1)
    (hids : idsIndexed devs = true)
    (hcount : repMax b.replicas b.parts ≤ (activeDevs devs).length) :
    ∃ pick : Device, pick ∈ activeDevs devs ∧
      memB pick.id (rowIds ((rowAt st.table s.1).set s.2 none)) = false ∧
      placeStep devs (activeDevs devs) ov wone seed st s =
        { table := setEntry st.table s.1 s.2 (some pick.id)
          wants := bumpWants st.wants pick.id (-1) } := by
  cases helig : (activeDevs devs).filter
      (fun d => !memB d.id (rowIds ((rowAt st.table s.1).set s.2 none))) with
  | cons e es =>
      have hsub : ∀ d : Device, d ∈ e :: es → d ∈ activeDevs devs ∧
          memB d.id (rowIds ((rowAt st.table s.1).set s.2 none)) = false := by
        intro d hd
        rw [← helig] at hd
        refine ⟨List.mem_of_mem_filter hd, ?_⟩
        have := List.of_mem_filter hd
        simpa using this
      have hp := hsub _ (pickDest_mem devs
        (rowIds ((rowAt st.table s.1).set s.2 none)) st.wants ov wone
        (mix seed s.1) e es)
      refine ⟨_, hp.1, hp.2, ?_⟩
      unfold placeStep
      rw [helig]
  | nil =>
      exfalso
      have hall : ∀ d ∈ activeDevs devs,
          d.id ∈ rowIds ((rowAt st.table s.1).set s.2 none) := by
        intro d hd
        by_contra hnm
        have hmb : memB d.id (rowIds ((rowAt st.table s.1).set s.2 none)) = false := by
          cases hmm : memB d.id (rowIds ((rowAt st.table s.1).set s.2 none)) with
          | true => exact absurd ((memB_iff _ _).mp hmm) hnm
          | false => rfl
        have : d ∈ (activeDevs devs).filter
            (fun d => !memB d.id (rowIds ((rowAt st.table s.1).set s.2 none))) :=
          List.mem_filter.mpr ⟨hd, by simp [hmb]⟩
        rw [helig] at this
        cases this
      have hsubset : ((activeDevs devs).map (fun d => d.id)) ⊆
          rowIds ((rowAt st.table s.1).set s.2 none) := by
        intro x hx
        rcases List.mem_map.mp hx with ⟨d, hd, rfl⟩
        exact hall d hd
      have hnd := activeDevs_ids_nodup hids
      have hlen1 : ((activeDevs devs).map (fun d => d.id)).length ≤
          (rowIds ((rowAt st.table s.1).set s.2 none)).length :=
        (hnd.subperm hsubset).length_le
      have hrl : (rowAt st.table s.1).length = b.replicaCountFor s.1 :=
        hq.2.1 s.1 hs1
      have hlen2 := rowIds_set_none_length (rowAt st.table s.1) s.2
        (by omega)
      have hmax := repCount_le_repMax b.replicas b.parts s.1
      have : (activeDevs devs).length ≤
          (rowIds ((rowAt st.table s.1).set s.2 none)).length := by
        simpa using hlen1
      unfold RingBuilder.replicaCountFor at hrl
      omega

def slotAssigned (t : Table) (s : Nat × Nat) : Prop :=
  ∃ d, (rowAt t s.1)[s.2]? = some (some d)

theorem placeStep_entry (devs : List (Option Device)) (active : List Device)
    (ov wone : Frac) (seed : Nat) (st : PlaceState) (s y : Nat × Nat) :
    (rowAt (placeStep devs active ov wone seed st s).table y.1)[y.2]? =
      (rowAt st.table y.1)[y.2]? ∨
    ∃ pick : Device, pick ∈ active ∧
      (rowAt (placeStep devs active ov wone seed st s).table y.1)[y.2]? =
        some (some pick.id) := by
  rcases placeStep_cases devs active ov wone seed st s with heq | ⟨pick, hmem, _, heq⟩
  · rw [heq]; exact Or.inl rfl
  · rw [heq]
    by_cases hpy : y.1 = s.1
    · by_cases hin : s.1 < st.table.length
      · rw [hpy, rowAt_setEntry_self _ _ _ _ hin]
        by_cases hy2 : y.2 = s.2
        · by_cases hj : s.2 < (rowAt st.table s.1).length
          · rw [hy2, List.getElem?_set_self (by simpa using hj)]
            exact Or.inr ⟨pick, hmem, rfl⟩
          · rw [hy2, set_out_of_range _ _ _ (by omega), ← hpy]
            exact Or.inl rfl
        · rw [List.getElem?_set_ne (fun h => hy2 h.symm), ← hpy]
          exact Or.inl rfl
      · rw [setEntry_out_of_range _ _ _ _ (by omega)]
        exact Or.inl rfl
    · rw [rowAt_setEntry_ne _ _ _ _ _ hpy]
      exact Or.inl rfl

theorem placeStep_clean_mono (devs : List (Option Device))
    (ov wone : Frac) (seed : Nat) (st : PlaceState) (s y : Nat × Nat)
    (hids : idsIndexed devs = true)
    (h : cleanSlot devs st.table y) :
    cleanSlot devs (placeStep devs (activeDevs devs) ov wone seed st s).table
      y := by
  rcases placeStep_entry devs (activeDevs devs) ov wone seed st s y with
    heq | ⟨pick, hmem, heq⟩
  · intro d hd
    rw [heq] at hd
    exact h d hd
  · intro d hd
    rw [heq] at hd
    cases hd
    rcases mem_activeDevs hmem with ⟨i, hdev, hp⟩
    have hid := idsIndexed_devAt hids hdev
    exact ⟨pick, by rw [hid]; exact hdev, hp⟩

theorem placeStep_assigned_mono (devs : List (Option Device))
    (active : List Device) (ov wone : Frac) (seed : Nat) (st : PlaceState)
    (s y : Nat × Nat) (h : slotAssigned st.table y) :
    slotAssigned (placeStep devs active ov wone seed st s).table y := by
  rcases placeStep_entry devs active ov wone seed st s y with
    heq | ⟨pick, _, heq⟩
  · rcases h with ⟨d, hd⟩
    exact ⟨d, by rw [heq]; exact hd⟩
  · exact ⟨pick.id, heq⟩

theorem placeStep_qplace (b : RingBuilder) (devs : List (Option Device))
    (active : List Device) (ov wone : Frac) (seed : Nat) (st : PlaceState)
    (s : Nat × Nat) (hq : QPlace b st) :
    QPlace b (placeStep devs active ov wone seed st s) := by
  rcases placeStep_cases devs active ov wone seed st s with heq | ⟨pick, _, hnm, heq⟩
  · rw [heq]; exact hq
  · rw [heq]
    obtain ⟨tlen, rlen, nodup⟩ := hq
    refine ⟨by simp [setEntry_length, tlen], ?_, ?_⟩
    · intro p hp
      by_cases hps : p = s.1
      · subst hps
        by_cases hin : s.1 < st.table.length
        · rw [rowAt_setEntry_self _ _ _ _ hin, List.length_set]
          exact rlen s.1 hp
        · rw [setEntry_out_of_range _ _ _ _ (by omega)]
          exact rlen s.1 hp
      · rw [rowAt_setEntry_ne _ _ _ _ _ hps]
        exact rlen p hp
    · intro p
      by_cases hps : p = s.1
      · subst hps
        by_cases hin : s.1 < st.table.length
        · rw [rowAt_setEntry_self _ _ _ _ hin]
          refine rowIds_set_some_nodup _ _ _
            ((rowIds_set_none_sublist _ _).nodup (nodup s.1)) ?_
          intro hm
          rw [(memB_iff _ _).mpr hm] at hnm
          cases hnm
        · rw [setEntry_out_of_range _ _ _ _ (by omega)]
          exact nodup s.1
      · rw [rowAt_setEntry_ne _ _ _ _ _ hps]
        exact nodup p

theorem placeStep_est (b : RingBuilder) (devs : List (Option Device))
    (ov wone : Frac) (seed : Nat) (st : PlaceState) (s : Nat × Nat)
    (hq : QPlace b st) (hs1 : s.1 < b.parts)
    (hs2 : s.2 < b.replicaCountFor s.1)
    (hids : idsIndexed devs = true)
    (hcount : repMax b.replicas b.parts ≤ (activeDevs devs).length) :
    slotAssigned (placeStep devs (activeDevs devs) ov wone seed st s).table
      s := by
  rcases placeStep_assigns b devs ov wone seed st s hq hs1 hs2 hids hcount with
    ⟨pick, _, _, heq⟩
  rw [heq]
  have hin : s.1 < st.table.length := by
    have := hq.1
    omega
  have hrl : (rowAt st.table s.1).length = b.replicaCountFor s.1 :=
    hq.2.1 s.1 hs1
  refine ⟨pick.id, ?_⟩
  simp only [rowAt_setEntry_self _ _ _ _ hin]
  rw [List.getElem?_set_self (by omega)]

set_option maxHeartbeats 1000000 in
/-- Every gathered slot ends up assigned, and the shape, distinctness and
cleanliness invariants survive the whole placement fold. -/
theorem placeAll_final (b : RingBuilder) (devs : List (Option Device))
    (ov wone : Frac) (seed : Nat) (g : List (Nat × Nat)) (st : PlaceState)
    (hin : ∀ s ∈ g, s.1 < b.parts ∧ s.2 < b.replicaCountFor s.1)
    (hids : idsIndexed devs = true)
    (hcount : repMax b.replicas b.parts ≤ (activeDevs devs).length)
    (hq : QPlace b st) :
    QPlace b (placeAll devs (activeDevs devs) ov wone seed g st) ∧
    (∀ s ∈ g,
      slotAssigned (placeAll devs (activeDevs devs) ov wone seed g st).table
        s) ∧
    (∀ y, cleanSlot devs st.table y →
      cleanSlot devs (placeAll devs (activeDevs devs) ov wone seed g st).table
        y) ∧
    (∀ y, slotAssigned st.table y →
      slotAssigned (placeAll devs (activeDevs devs) ov wone seed g st).table
        y) := by
  simp only [placeAll]
  refine ⟨?_, ?_, ?_, ?_⟩
  · exact foldl_inv_only g st
      (fun s2 x _ hq2 => placeStep_qplace b devs _ ov wone seed s2 x hq2) hq
  · exact foldl_inv_est (Q := fun s2 => QPlace b s2) g st
      (fun s2 x _ hq2 => placeStep_qplace b devs _ ov wone seed s2 x hq2)
      (fun s2 x hx hq2 => placeStep_est b devs ov wone seed s2 x hq2
        (hin x hx).1 (hin x hx).2 hids hcount)
      (fun s2 x y _ _ hp => placeStep_assigned_mono devs _ ov wone seed s2 x y hp)
      hq
  · intro y hy
    exact foldl_inv_only (Q := fun s2 => cleanSlot devs s2.table y) g st
      (fun s2 x _ hq2 => placeStep_clean_mono devs ov wone seed s2 x y hids hq2)
      hy
  · intro y hy
    exact foldl_inv_only (Q := fun s2 => slotAssigned s2.table y) g st
      (fun s2 x _ hq2 => placeStep_assigned_mono devs _ ov wone seed s2 x y hq2)
      hy

/-! ### Commit lemmas -/

theorem commitDevs_length (devs : List (Option Device)) (t : Table)
    (wone : Frac) : (commitDevs devs t wone).length = devs.length := by
  simp [commitDevs]

theorem devAt_commitDevs (devs : List (Option Device)) (t : Table)
    (wone : Frac) (i : Nat) :
    devAt (commitDevs devs t wone) i =
      match devAt devs i with
      | none => none
      | some d =>
          if d.pending_removal && countRefs t i == 0 then none
          else some { d with parts := countRefs t i
                             parts_wanted :=
                               ((d.weight.mul wone).roundNat : Int) -
                                 (countRefs t i : Int) } := by
  by_cases hi : i < devs.length
  · have h1 : (commitDevs devs t wone)[i]? = some
        (match devAt devs i with
         | none => none
         | some d =>
             if d.pending_removal && countRefs t i == 0 then none
             else some { d with parts := countRefs t i
                                parts_wanted :=
                                  ((d.weight.mul wone).roundNat : Int) -
                                    (countRefs t i : Int) }) := by
      unfold commitDevs
      rw [List.getElem?_map, List.getElem?_range hi]
      rfl
    rw [devAt, h1]
    rfl
  · have h1 : devAt devs i = none := by
      unfold devAt
      rw [List.getElem?_eq_none (by omega : devs.length ≤ i)]
      rfl
    have h2 : devAt (commitDevs devs t wone) i = none := by
      unfold devAt
      rw [List.getElem?_eq_none
        (by rw [commitDevs_length]; omega : (commitDevs devs t wone).length ≤ i)]
      rfl
    rw [h1, h2]

theorem rowIds_length_full (row : List (Option Nat))
    (h : ∀ e ∈ row, e.isSome) : (rowIds row).length = row.length := by
  induction row with
  | nil => simp [rowIds]
  | cons e rest ih =>
      cases he : e with
      | none =>
          exfalso
          have := h none (by rw [← he]; exact List.mem_cons_self _ _)
          simp at this
      | some d =>
          simp only [rowIds, List.filterMap_cons, id_eq, List.length_cons]
          have h2 := ih (fun x hx => h x (List.mem_cons_of_mem _ hx))
          simp only [rowIds] at h2
          omega

/-- A positive reference count exhibits an occurrence. -/
theorem countRefs_pos (t : Table) (i : Nat) (h : countRefs t i ≠ 0) :
    ∃ p j, p < t.length ∧ j < (rowAt t p).length ∧
      (rowAt t p)[j]? = some (some i) := by
  unfold countRefs at h
  have hex : ∃ row ∈ t, row.countP (fun e => e == some i) ≠ 0 := by
    by_contra hc
    push_neg at hc
    apply h
    apply List.sum_eq_zero
    intro x hx
    rcases List.mem_map.mp hx with ⟨row, hrow, rfl⟩
    exact hc row hrow
  rcases hex with ⟨row, hrow, hcount⟩
  have : ∃ e ∈ row, (e == some i) = true := by
    by_contra hc
    push_neg at hc
    apply hcount
    rw [List.countP_eq_zero]
    intro e he
    exact hc e he
  rcases this with ⟨e, he, heq⟩
  have he2 : e = some i := by simpa using heq
  subst he2
  rcases List.mem_iff_getElem.mp he with ⟨j, hj, hje⟩
  rcases List.mem_iff_getElem.mp hrow with ⟨p, hp, hpe⟩
  refine ⟨p, j, hp, ?_, ?_⟩
  · have : rowAt t p = row := by
      simp [rowAt, List.getElem?_eq_getElem hp, hpe]
    rw [this]
    exact hj
  · have hr : rowAt t p = row := by
      simp [rowAt, List.getElem?_eq_getElem hp, hpe]
    rw [hr, List.getElem?_eq_getElem hj, hje]

set_option maxHeartbeats 1000000 in
/-- A fully assigned table of canonical shape, whose entries all reference
present non-removed devices and whose device counters were rewritten at
commit, passes validation (spec section 4.4). -/
theorem validateB_full (b2 : RingBuilder) (devs0 : List (Option Device))
    (wone : Frac)
    (hdevs : b2.devs = commitDevs devs0 b2.replica2part2dev wone)
    (tlen : b2.replica2part2dev.length = b2.parts)
    (rlen : ∀ p, p < b2.parts →
      (rowAt b2.replica2part2dev p).length = b2.replicaCountFor p)
    (hnodup : ∀ p, (rowIds (rowAt b2.replica2part2dev p)).Nodup)
    (hfull : ∀ p i, p < b2.parts → i < b2.replicaCountFor p →
      ∃ d dev, (rowAt b2.replica2part2dev p)[i]? = some (some d) ∧
        devAt devs0 d = some dev ∧ dev.pending_removal = false) :
    validateB b2 false = true := by
  have hrow_of_mem : ∀ row ∈ b2.replica2part2dev,
      ∃ p, p < b2.parts ∧ rowAt b2.replica2part2dev p = row := by
    intro row hrow
    rcases List.mem_iff_getElem.mp hrow with ⟨p, hp, hpe⟩
    refine ⟨p, by omega, ?_⟩
    simp [rowAt, List.getElem?_eq_getElem hp, hpe]
  have hslot : ∀ p, p < b2.parts → ∀ j, j < (rowAt b2.replica2part2dev p).length →
      ∃ d dev, (rowAt b2.replica2part2dev p)[j]? = some (some d) ∧
        devAt devs0 d = some dev ∧ dev.pending_removal = false := by
    intro p hp j hj
    exact hfull p j hp (by rw [← rlen p hp]; exact hj)
  have hids_live : ∀ row ∈ b2.replica2part2dev, ∀ x ∈ rowIds row,
      ∃ dev, devAt devs0 x = some dev ∧ dev.pending_removal = false := by
    intro row hrow x hx
    rcases hrow_of_mem row hrow with ⟨p, hp, hpe⟩
    rcases List.mem_filterMap.mp hx with ⟨e, he, hee⟩
    have he2 : e = some x := by
      cases e with
      | none => simp at hee
      | some y => simpa using hee
    subst he2
    rcases List.mem_iff_getElem.mp he with ⟨j, hj, hje⟩
    have hj2 : j < (rowAt b2.replica2part2dev p).length := by rw [hpe]; exact hj
    rcases hslot p hp j hj2 with ⟨d, dev, hent, hdev, hpend⟩
    have : (rowAt b2.replica2part2dev p)[j]? = some (some x) := by
      rw [hpe, List.getElem?_eq_getElem hj, hje]
    rw [this] at hent
    cases hent
    exact ⟨dev, hdev, hpend⟩
  have hfull_row : ∀ row ∈ b2.replica2part2dev, ∀ e ∈ row, e.isSome := by
    intro row hrow e he
    rcases hrow_of_mem row hrow with ⟨p, hp, hpe⟩
    rcases List.mem_iff_getElem.mp he with ⟨j, hj, hje⟩
    have hj2 : j < (rowAt b2.replica2part2dev p).length := by rw [hpe]; exact hj
    rcases hslot p hp j hj2 with ⟨d, dev, hent, _, _⟩
    have : (rowAt b2.replica2part2dev p)[j]? = some e := by
      rw [hpe, List.getElem?_eq_getElem hj, hje]
    rw [this] at hent
    cases hent
    simp
  simp only [validateB, Bool.and_eq_true, beq_iff_eq, List.all_eq_true,
    Bool.or_eq_true, Bool.not_false, Bool.true_or, and_true]
  repeat' apply And.intro
  · exact tlen
  · intro p hp
    rw [List.mem_range] at hp
    simp [rlen p hp]
  · intro row hrow
    intro x hx
    rcases hids_live row hrow x hx with ⟨dev, hdev, hpend⟩
    rw [hdevs, devAt_commitDevs, hdev]
    simp [hpend]
  · intro row hrow
    rcases hrow_of_mem row hrow with ⟨p, hp, hpe⟩
    rw [← hpe]
    exact (nodupB_iff _).mpr (hnodup p)
  · intro i hi
    rw [hdevs, devAt_commitDevs]
    cases hdev : devAt devs0 i with
    | none => simp
    | some d =>
        by_cases hpc : d.pending_removal && countRefs b2.replica2part2dev i == 0
        · simp [hpc]
        · simp only [hpc, if_false]
          simp
  · right
    have hmaps : b2.replica2part2dev.map (fun row => (rowIds row).length) =
        (List.range b2.parts).map (repCount b2.replicas b2.parts) := by
      apply List.ext_getElem?
      intro p
      by_cases hp : p < b2.parts
      · have hpt : p < b2.replica2part2dev.length := by omega
        rw [List.getElem?_map, List.getElem?_eq_getElem hpt,
          List.getElem?_map, List.getElem?_range hp]
        have hrm : rowAt b2.replica2part2dev p = b2.replica2part2dev[p] := by
          simp [rowAt, List.getElem?_eq_getElem hpt]
        have h1 : (rowIds b2.replica2part2dev[p]).length =
            b2.replica2part2dev[p].length := by
          apply rowIds_length_full
          intro e he
          exact hfull_row _ (List.getElem_mem hpt) e he
        have h2 : b2.replica2part2dev[p].length = b2.replicaCountFor p := by
          rw [← hrm]
          exact rlen p hp
        simp [h1, h2, RingBuilder.replicaCountFor]
      · rw [List.getElem?_map, List.getElem?_map,
          List.getElem?_eq_none (by omega : b2.replica2part2dev.length ≤ p),
          List.getElem?_eq_none (by simp; omega : (List.range b2.parts).length ≤ p)]
        rfl
    unfold tableAssignedCount expectedSlots
    rw [hmaps]

theorem gatherPass_len_mono (now : Nat)
    (rule : PlanState → Nat → Nat → GDecision) (order : List (Nat × Nat))
    (st : PlanState) :
    st.gathered.length ≤ (gatherPass now rule order st).gathered.length := by
  refine foldl_inv_only
    (Q := fun s2 => st.gathered.length ≤ s2.gathered.length) order st ?_
    (Nat.le_refl _)
  intro s2 x _ hq
  rcases gatherStep_cases now rule s2 x with heq | heq | heq <;> rw [heq]
  · exact hq
  · exact hq
  · simp only [List.length_append, List.length_cons, List.length_nil]
    omega

theorem mem_of_mem_set {α : Type _} (l : List α) (i : Nat) (v x : α)
    (h : x ∈ l.set i v) : x ∈ l ∨ x = v := by
  induction l generalizing i with
  | nil => simp at h
  | cons a rest ih =>
      cases i with
      | zero =>
          rcases List.mem_cons.mp h with rfl | h2
          · exact Or.inr rfl
          · exact Or.inl (List.mem_cons_of_mem _ h2)
      | succ j =>
          rcases List.mem_cons.mp h with rfl | h2
          · exact Or.inl (List.mem_cons_self _ _)
          · rcases ih j h2 with h3 | h3
            · exact Or.inl (List.mem_cons_of_mem _ h3)
            · exact Or.inr h3

theorem set_mem_self {α : Type _} (l : List α) (i : Nat) (v : α)
    (h : i < l.length) : v ∈ l.set i v := by
  induction l generalizing i with
  | nil => simp at h
  | cons a rest ih =>
      cases i with
      | zero => exact List.mem_cons_self _ _
      | succ j => exact List.mem_cons_of_mem _ (ih j (by simpa using h))

theorem foldl_max_eq (l : List Nat) (t now : Nat)
    (hall : ∀ x ∈ t :: l, x ≤ now) (hmem : now ∈ t :: l) :
    l.foldl max t = now := by
  induction l generalizing t with
  | nil =>
      rcases List.mem_cons.mp hmem with rfl | h
      · rfl
      · cases h
  | cons a rest ih =>
      have hta : max t a ≤ now := by
        have h1 := hall t (List.mem_cons_self _ _)
        have h2 := hall a (List.mem_cons_of_mem _ (List.mem_cons_self _ _))
        omega
      have hall2 : ∀ x ∈ max t a :: rest, x ≤ now := by
        intro x hx
        rcases List.mem_cons.mp hx with rfl | hx
        · exact hta
        · exact hall x (List.mem_cons_of_mem _ (List.mem_cons_of_mem _ hx))
      refine ih (max t a) hall2 ?_
      rcases List.mem_cons.mp hmem with rfl | hmem2
      · have h2 := hall a (List.mem_cons_of_mem _ (List.mem_cons_self _ _))
        have : max now a = now := by omega
        rw [this]
        exact List.mem_cons_self _ _
      · rcases List.mem_cons.mp hmem2 with rfl | hmem3
        · have h1 := hall t (List.mem_cons_self _ _)
          have : max t now = now := by omega
          rw [this]
          exact List.mem_cons_self _ _
        · exact List.mem_cons_of_mem _ hmem3

/-- Move-time bookkeeping through a gather pass: stamps only write the
current time, and a pass that gathered something has stamped it. -/
theorem gatherPass_stamps (b : RingBuilder) (now : Nat)
    (rule : PlanState → Nat → Nat → GDecision) (order : List (Nat × Nat))
    (st : PlanState)
    (horder : ∀ s ∈ order, s.1 < b.parts ∧ s.2 < b.replicaCountFor s.1)
    (hb : PBase b st)
    (h7 : ∀ x ∈ st.last_part_moves.filterMap id, x ≤ now)
    (h8 : st.gathered = [] ∨ some now ∈ st.last_part_moves) :
    (∀ x ∈ (gatherPass now rule order st).last_part_moves.filterMap id,
      x ≤ now) ∧
    ((gatherPass now rule order st).gathered = [] ∨
      some now ∈ (gatherPass now rule order st).last_part_moves) := by
  have key := foldl_inv_keep (f := gatherStep now rule)
    (Q := fun s2 => PBase b s2)
    (P := fun s2 =>
      (∀ x ∈ s2.last_part_moves.filterMap id, x ≤ now) ∧
      (s2.gathered = [] ∨ some now ∈ s2.last_part_moves))
    order st ?_ ?_ hb ⟨h7, h8⟩
  · exact key.2
  · intro s2 x hx hq
    exact gatherStep_pbase b now rule s2 x (horder x hx) hq
  · intro s2 x hx hq hp
    rcases gatherStep_cases now rule s2 x with heq | heq | heq <;> rw [heq]
    · exact hp
    · exact hp
    · constructor
      · intro y hy
        rcases List.mem_filterMap.mp hy with ⟨e, he, hee⟩
        rcases mem_of_mem_set _ _ _ _ he with h2 | h2
        · exact hp.1 y (List.mem_filterMap.mpr ⟨e, h2, hee⟩)
        · subst h2
          simp only [id_eq] at hee
          cases hee
          exact Nat.le_refl _
      · right
        apply set_mem_self
        have hlm := hq.2.2.2.1
        have := (horder x hx).1
        omega

/-- Propositional form of the structural well-formedness invariant. -/
def RingBuilder.Wf (b : RingBuilder) : Prop :=
  b.replica2part2dev.length = b.parts ∧
  (∀ p, p < b.parts →
    (rowAt b.replica2part2dev p).length = b.replicaCountFor p) ∧
  (∀ p, (rowIds (rowAt b.replica2part2dev p)).Nodup) ∧
  b.last_part_moves.length = b.parts ∧
  idsIndexed b.devs = true

theorem wfB_iff (b : RingBuilder) : b.wfB = true ↔ b.Wf := by
  unfold RingBuilder.wfB RingBuilder.Wf
  simp only [Bool.and_eq_true, beq_iff_eq, List.all_eq_true, List.mem_range]
  constructor
  · intro h
    have h1 := h.1.1.1.1
    have h2 := h.1.1.1.2
    have h3 := h.1.1.2
    have h4 := h.1.2
    have h5 := h.2
    refine ⟨h1, fun p hp => h2 p hp, ?_, h4, h5⟩
    intro p
    by_cases hp : p < b.parts
    · have hmem : rowAt b.replica2part2dev p ∈ b.replica2part2dev := by
        have hpt : p < b.replica2part2dev.length := by omega
        have : rowAt b.replica2part2dev p = b.replica2part2dev[p] := by
          simp [rowAt, List.getElem?_eq_getElem hpt]
        rw [this]
        exact List.getElem_mem hpt
      exact (nodupB_iff _).mp (h3 _ hmem)
    · rw [rowAt_out_of_range _ _ (by omega)]
      simp [rowIds]
  · rintro ⟨h1, h2, h3, h4, h5⟩
    refine ⟨⟨⟨⟨h1, fun p hp => h2 p hp⟩, ?_⟩, h4⟩, h5⟩
    intro row hrow
    rcases List.mem_iff_getElem.mp hrow with ⟨p, hp, hpe⟩
    have : rowAt b.replica2part2dev p = row := by
      simp [rowAt, List.getElem?_eq_getElem hp, hpe]
    rw [← this]
    exact (nodupB_iff _).mpr (h3 p)

set_option maxHeartbeats 2000000 in
/-- Master specification of a committed rebalance on a well-formed builder
with enough non-removed devices: the result validates, replicas stay
pairwise distinct, every pending-removal device is fully evacuated and
dropped (leaving a hole), other registry slots survive, and the move
history is stamped exactly on the moved partitions. -/
theorem rebalanceCommit_spec (b : RingBuilder) (seed now : Nat)
    (hwf : b.Wf)
    (hcount : repMax b.replicas b.parts ≤ (activeDevs b.devs).length) :
    validateB (rebalanceCommit b seed now).builder false = true ∧
    (∀ row ∈ (rebalanceCommit b seed now).builder.replica2part2dev,
      (rowIds row).Nodup) ∧
    (∀ i d, devAt b.devs i = some d → d.pending_removal = true →
      devAt (rebalanceCommit b seed now).builder.devs i = none ∧
      countRefs (rebalanceCommit b seed now).builder.replica2part2dev i = 0) ∧
    (∀ i d, devAt b.devs i = some d → d.pending_removal = false →
      ∃ d2, devAt (rebalanceCommit b seed now).builder.devs i = some d2 ∧
        d2.pending_removal = false) ∧
    (∀ i, devAt b.devs i = none →
      devAt (rebalanceCommit b seed now).builder.devs i = none) ∧
    (rebalanceCommit b seed now).builder.devs.length = b.devs.length ∧
    ((rebalanceCommit b seed now).parts_moved = 0 →
      (rebalanceCommit b seed now).builder.last_part_moves =
        b.last_part_moves) ∧
    (0 < (rebalanceCommit b seed now).parts_moved →
      (∀ x ∈ b.last_part_moves.filterMap id, x ≤ now) →
      lastMoveTime (rebalanceCommit b seed now).builder = some now) := by
  obtain ⟨htlen, hrlen, hnodup, hlmlen, hids⟩ := hwf
  have horder : ∀ k, ∀ s ∈ seededOrder k (allSlots b.replicas b.parts),
      s.1 < b.parts ∧ s.2 < b.replicaCountFor s.1 := by
    intro k s hs
    have := (seededOrder_perm k (allSlots b.replicas b.parts)).mem_iff.mp hs
    exact mem_allSlots.mp this
  have hcover : ∀ k (s : Nat × Nat), s.1 < b.parts →
      s.2 < b.replicaCountFor s.1 →
      s ∈ seededOrder k (allSlots b.replicas b.parts) := by
    intro k s h1 h2
    exact (seededOrder_perm k (allSlots b.replicas b.parts)).mem_iff.mpr
      (mem_allSlots.mpr ⟨h1, h2⟩)
  have hbase0 : PBase b (planStart b) := by
    refine ⟨htlen, hrlen, hnodup, hlmlen, ?_⟩
    intro s hs
    cases hs
  -- the three gather passes
  have hbaseA : PBase b (gatherPass now (ruleMandatory b.devs)
      (seededOrder (mix seed 1) (allSlots b.replicas b.parts))
      (planStart b)) :=
    gatherPass_pbase b now _ _ _ (horder _) hbase0
  have hbaseB : PBase b (gatherPass now
      (ruleDispersion b.devs b.min_part_hours now)
      (seededOrder (mix seed 2) (allSlots b.replicas b.parts))
      (gatherPass now (ruleMandatory b.devs)
        (seededOrder (mix seed 1) (allSlots b.replicas b.parts))
        (planStart b))) :=
    gatherPass_pbase b now _ _ _ (horder _) hbaseA
  have hbaseC : PBase b (planGather b seed now) := by
    unfold planGather
    exact gatherPass_pbase b now _ _ _ (horder _) hbaseB
  have hslotC : ∀ s : Nat × Nat, s.1 < b.parts → s.2 < b.replicaCountFor s.1 →
      gatherSlotOK b.devs (planGather b seed now) s := by
    intro s h1 h2
    have hA := gatherPass_mandatory_est b.devs now
      (seededOrder (mix seed 1) (allSlots b.replicas b.parts)) (planStart b)
      s (hcover _ s h1 h2)
    unfold planGather
    exact gatherPass_slotOK_mono b.devs now _ _ _ s
      (gatherPass_slotOK_mono b.devs now _ _ _ s hA)
  have hqC : QPlace b
      { table := (planGather b seed now).table
        wants := (planGather b seed now).wants } :=
    ⟨hbaseC.1, hbaseC.2.1, hbaseC.2.2.1⟩
  have hplace := placeAll_final b b.devs b.overload (weight_of_one_part b)
    (mix seed 4) (planGather b seed now).gathered
    { table := (planGather b seed now).table
      wants := (planGather b seed now).wants }
    hbaseC.2.2.2.2 hids hcount hqC
  have hplanPlace : planPlace b seed now =
      placeAll b.devs (activeDevs b.devs) b.overload (weight_of_one_part b)
        (mix seed 4) (planGather b seed now).gathered
        { table := (planGather b seed now).table
          wants := (planGather b seed now).wants } := rfl
  rw [← hplanPlace] at hplace
  obtain ⟨hqF, hestF, hcleanF, hassignF⟩ := hplace
  -- every valid slot of the final table is assigned to a live device
  have hfullF : ∀ p i, p < b.parts → i < b.replicaCountFor p →
      ∃ d dev, (rowAt (planPlace b seed now).table p)[i]? = some (some d) ∧
        devAt b.devs d = some dev ∧ dev.pending_removal = false := by
    intro p i hp hi
    have hclean : cleanSlot b.devs (planPlace b seed now).table (p, i) := by
      apply hcleanF
      exact (hslotC (p, i) hp hi).1
    have hassigned : slotAssigned (planPlace b seed now).table (p, i) := by
      have hpt : p < (planGather b seed now).table.length := by
        have := hbaseC.1
        omega
      have hrl : (rowAt (planGather b seed now).table p).length =
          b.replicaCountFor p := hbaseC.2.1 p hp
      have hisome : ((rowAt (planGather b seed now).table p)[i]?).isSome := by
        rw [List.getElem?_eq_getElem (by omega)]
        rfl
      cases hent : (rowAt (planGather b seed now).table p)[i]? with
      | none => rw [hent] at hisome; simp at hisome
      | some e =>
          cases e with
          | none =>
              apply hestF
              exact (hslotC (p, i) hp hi).2 hent
          | some d =>
              apply hassignF
              exact ⟨d, hent⟩
    rcases hassigned with ⟨d, hd⟩
    rcases hclean d hd with ⟨dev, hdev, hpend⟩
    exact ⟨d, dev, hd, hdev, hpend⟩
  have hFtlen : (planPlace b seed now).table.length = b.parts := hqF.1
  have hFrlen : ∀ p, p < b.parts →
      (rowAt (planPlace b seed now).table p).length = b.replicaCountFor p :=
    hqF.2.1
  have hFnodup : ∀ p, (rowIds (rowAt (planPlace b seed now).table p)).Nodup :=
    hqF.2.2
  -- no table entry references a pending-removal device
  have hnopending : ∀ i d, devAt b.devs i = some d → d.pending_removal = true →
      countRefs (planPlace b seed now).table i = 0 := by
    intro i d hdev hpend
    by_contra hne
    rcases countRefs_pos _ _ hne with ⟨p, j, hp, hj, hent⟩
    have hp2 : p < b.parts := by omega
    have hj2 : j < b.replicaCountFor p := by
      have := hFrlen p hp2
      omega
    rcases hfullF p j hp2 hj2 with ⟨d2, dev2, hent2, hdev2, hpend2⟩
    rw [hent] at hent2
    cases hent2
    rw [hdev] at hdev2
    cases hdev2
    rw [hpend] at hpend2
    cases hpend2
  refine ⟨?_, ?_, ?_, ?_, ?_, ?_, ?_, ?_⟩
  · -- validation
    apply validateB_full _ b.devs (weight_of_one_part b)
    · rfl
    · exact hFtlen
    · exact hFrlen
    · exact hFnodup
    · exact hfullF
  · -- pairwise distinct replicas
    intro row hrow
    have hrow2 : row ∈ (planPlace b seed now).table := hrow
    rcases List.mem_iff_getElem.mp hrow2 with ⟨p, hp, hpe⟩
    have : rowAt (planPlace b seed now).table p = row := by
      simp [rowAt, List.getElem?_eq_getElem hp, hpe]
    rw [← this]
    exact hFnodup p
  · -- pending-removal devices are dropped with zero replicas
    intro i d hdev hpend
    have hz := hnopending i d hdev hpend
    constructor
    · show devAt (commitDevs b.devs (planPlace b seed now).table
        (weight_of_one_part b)) i = none
      rw [devAt_commitDevs, hdev]
      simp [hz, hpend]
    · exact hz
  · -- non-removed devices survive the commit
    intro i d hdev hpend
    show ∃ d2, devAt (commitDevs b.devs (planPlace b seed now).table
      (weight_of_one_part b)) i = some d2 ∧ d2.pending_removal = false
    rw [devAt_commitDevs, hdev]
    simp [hpend]
  · -- holes stay holes
    intro i hdev
    show devAt (commitDevs b.devs (planPlace b seed now).table
      (weight_of_one_part b)) i = none
    rw [devAt_commitDevs, hdev]
  · -- registry length is preserved
    exact commitDevs_length _ _ _
  · -- a rebalance that moved nothing left the move history alone
    intro hzero
    have hzeroC : (planGather b seed now).gathered.length = 0 := hzero
    have hlenA := gatherPass_len_mono now (ruleMandatory b.devs)
      (seededOrder (mix seed 1) (allSlots b.replicas b.parts)) (planStart b)
    have hlenB := gatherPass_len_mono now
      (ruleDispersion b.devs b.min_part_hours now)
      (seededOrder (mix seed 2) (allSlots b.replicas b.parts))
      (gatherPass now (ruleMandatory b.devs)
        (seededOrder (mix seed 1) (allSlots b.replicas b.parts))
        (planStart b))
    have hlenC := gatherPass_len_mono now (ruleBalance b.min_part_hours now)
      (seededOrder (mix seed 3) (allSlots b.replicas b.parts))
      (gatherPass now (ruleDispersion b.devs b.min_part_hours now)
        (seededOrder (mix seed 2) (allSlots b.replicas b.parts))
        (gatherPass now (ruleMandatory b.devs)
          (seededOrder (mix seed 1) (allSlots b.replicas b.parts))
          (planStart b)))
    have hCg : (planGather b seed now).gathered.length =
        (gatherPass now (ruleDispersion b.devs b.min_part_hours now)
          (seededOrder (mix seed 2) (allSlots b.replicas b.parts))
          (gatherPass now (ruleMandatory b.devs)
            (seededOrder (mix seed 1) (allSlots b.replicas b.parts))
            (planStart b))).gathered.length := by
      unfold planGather at hzeroC ⊢
      omega
    have hC := gatherPass_no_gather now (ruleBalance b.min_part_hours now)
      (seededOrder (mix seed 3) (allSlots b.replicas b.parts)) _ hCg
    have hBg : (gatherPass now (ruleDispersion b.devs b.min_part_hours now)
        (seededOrder (mix seed 2) (allSlots b.replicas b.parts))
        (gatherPass now (ruleMandatory b.devs)
          (seededOrder (mix seed 1) (allSlots b.replicas b.parts))
          (planStart b))).gathered.length =
        (gatherPass now (ruleMandatory b.devs)
          (seededOrder (mix seed 1) (allSlots b.replicas b.parts))
          (planStart b)).gathered.length := by
      unfold planGather at hzeroC
      omega
    have hB := gatherPass_no_gather now
      (ruleDispersion b.devs b.min_part_hours now)
      (seededOrder (mix seed 2) (allSlots b.replicas b.parts)) _ hBg
    have hAg : (gatherPass now (ruleMandatory b.devs)
        (seededOrder (mix seed 1) (allSlots b.replicas b.parts))
        (planStart b)).gathered.length = (planStart b).gathered.length := by
      have h00 : (planStart b).gathered.length = 0 := rfl
      unfold planGather at hzeroC
      omega
    have hA := gatherPass_no_gather now (ruleMandatory b.devs)
      (seededOrder (mix seed 1) (allSlots b.replicas b.parts)) _ hAg
    show (planGather b seed now).last_part_moves = b.last_part_moves
    unfold planGather
    rw [hC.2.1, hB.2.1, hA.2.1]
    rfl
  · -- a rebalance that moved something stamped the moved partitions now
    intro hpos hall
    have h0 : (∀ x ∈ (planStart b).last_part_moves.filterMap id, x ≤ now) ∧
        ((planStart b).gathered = [] ∨
          some now ∈ (planStart b).last_part_moves) := ⟨hall, Or.inl rfl⟩
    have hA := gatherPass_stamps b now (ruleMandatory b.devs)
      (seededOrder (mix seed 1) (allSlots b.replicas b.parts)) (planStart b)
      (horder _) hbase0 h0.1 h0.2
    have hB := gatherPass_stamps b now
      (ruleDispersion b.devs b.min_part_hours now)
      (seededOrder (mix seed 2) (allSlots b.replicas b.parts)) _
      (horder _) hbaseA hA.1 hA.2
    have hC := gatherPass_stamps b now (ruleBalance b.min_part_hours now)
      (seededOrder (mix seed 3) (allSlots b.replicas b.parts)) _
      (horder _) hbaseB hB.1 hB.2
    have hC1 : ∀ x ∈ (planGather b seed now).last_part_moves.filterMap id,
        x ≤ now := by
      unfold planGather
      exact hC.1
    have hC2 : (planGather b seed now).gathered = [] ∨
        some now ∈ (planGather b seed now).last_part_moves := by
      unfold planGather
      exact hC.2
    have hmem : some now ∈ (planGather b seed now).last_part_moves := by
      rcases hC2 with h | h
      · exfalso
        have : (planGather b seed now).gathered.length = 0 := by rw [h]; rfl
        have hpos2 : 0 < (planGather b seed now).gathered.length := hpos
        omega
      · exact h
    have hmem2 : now ∈ (planGather b seed now).last_part_moves.filterMap id :=
      List.mem_filterMap.mpr ⟨some now, hmem, rfl⟩
    show lastMoveTime ((rebalanceCommit b seed now).builder) = some now
    unfold lastMoveTime
    have hlm : (rebalanceCommit b seed now).builder.last_part_moves =
        (planGather b seed now).last_part_moves := rfl
    rw [hlm]
    cases hfm : (planGather b seed now).last_part_moves.filterMap id with
    | nil => rw [hfm] at hmem2; cases hmem2
    | cons t ts =>
        rw [hfm] at hmem2 hC1
        show some (List.foldl max t ts) = some now
        rw [foldl_max_eq ts t now hC1 hmem2]

theorem rebalance_ok_elim {b : RingBuilder} {seed now : Nat}
    {r : RebalanceResult} (h : rebalance b seed now = .ok r) :
    r = rebalanceCommit b seed now ∧
    repMax b.replicas b.parts ≤ (activeDevs b.devs).length := by
  unfold rebalance at h
  by_cases h1 : (activeDevs b.devs).length = 0
  · rw [if_pos h1] at h; cases h
  · rw [if_neg h1] at h
    by_cases h2 : Frac.le (total_weight b) Frac.zero = true
    · rw [if_pos h2] at h; cases h
    · rw [if_neg h2] at h
      by_cases h3 : (activeDevs b.devs).length < repMax b.replicas b.parts
      · rw [if_pos h3] at h; cases h
      · rw [if_neg h3] at h
        cases h
        exact ⟨rfl, by omega⟩

/-- Post-condition of claim C1: whenever a rebalance completes successfully,
the resulting builder passes validation and every partition's replica
devices are pairwise distinct. -/
def rebalanceValidatesPost (b : RingBuilder) (seed now : Nat) : Prop :=
  ∀ r, rebalance b seed now = Except.ok r →
    validateB r.builder false = true ∧
    ∀ row ∈ r.builder.replica2part2dev, (rowIds row).Nodup

/-! ### Quiescence: a builder with a fully live table, no pending removals
and every partition inside its dwell window gathers nothing. -/

def tableAllLive (b : RingBuilder) : Bool :=
  (List.range b.parts).all (fun p =>
    (List.range (b.replicaCountFor p)).all (fun i =>
      match ((rowAt b.replica2part2dev p)[i]?).join with
      | none => false
      | some d =>
          match devAt b.devs d with
          | none => false
          | some dev => !dev.pending_removal))

def allDwellBlocked (b : RingBuilder) (now : Nat) : Bool :=
  (List.range b.parts).all (fun p =>
    match (b.last_part_moves[p]?).join with
    | none => false
    | some t => decide (now < t + b.min_part_hours * 3600))

def noPendingDevs (b : RingBuilder) : Bool :=
  (allDevs b.devs).all (fun d => !d.pending_removal)

theorem tableAllLive_spec (b : RingBuilder) (h : tableAllLive b = true) :
    ∀ p i, p < b.parts → i < b.replicaCountFor p →
      ∃ d dev, (rowAt b.replica2part2dev p)[i]? = some (some d) ∧
        devAt b.devs d = some dev ∧ dev.pending_removal = false := by
  intro p i hp hi
  have h1 := (List.all_eq_true.mp h) p (List.mem_range.mpr hp)
  have h2 := (List.all_eq_true.mp h1) i (List.mem_range.mpr hi)
  cases hj : (rowAt b.replica2part2dev p)[i]? with
  | none => rw [hj] at h2; simp [Option.join] at h2
  | some e =>
      cases e with
      | none => rw [hj] at h2; simp [Option.join] at h2
      | some d =>
          rw [hj] at h2
          cases hdev : devAt b.devs d with
          | none => simp [Option.join, hdev] at h2
          | some dev =>
              simp only [Option.join, Option.bind, id_eq, hdev] at h2
              refine ⟨d, dev, rfl, hdev, ?_⟩
              simpa using h2

theorem allDwellBlocked_spec (b : RingBuilder) (now : Nat)
    (h : allDwellBlocked b now = true) :
    ∀ p, p < b.parts →
      dwellOk b.min_part_hours now b.last_part_moves p = false := by
  intro p hp
  have h1 := (List.all_eq_true.mp h) p (List.mem_range.mpr hp)
  unfold dwellOk
  cases hj : (b.last_part_moves[p]?).join with
  | none => rw [hj] at h1; cases h1
  | some t =>
      have h2 : now < t + b.min_part_hours * 3600 := by
        rw [hj] at h1
        simpa using h1
      simp only [decide_eq_false_iff_not]
      omega

set_option maxHeartbeats 1000000 in
/-- On a well-formed builder whose table is fully live, with no pending
removals and every partition inside its dwell window, any rebalance that
does not error moves zero partitions, drops no device and leaves the table
and move history untouched (the second call of the idempotence scenario). -/
theorem rebalance_quiescent (b : RingBuilder) (seed now : Nat)
    (hwf : b.Wf)
    (hlive : tableAllLive b = true)
    (hdwell : allDwellBlocked b now = true)
    (hnopend : noPendingDevs b = true) :
    ∀ r, rebalance b seed now = Except.ok r →
      r.parts_moved = 0 ∧ r.removed_count = 0 ∧
      r.builder.replica2part2dev = b.replica2part2dev ∧
      r.builder.last_part_moves = b.last_part_moves := by
  intro r hr
  rcases rebalance_ok_elim hr with ⟨hreq, hcount⟩
  subst hreq
  obtain ⟨htlen, hrlen, hnodup, hlmlen, hids⟩ := hwf
  have horder : ∀ k, ∀ s ∈ seededOrder k (allSlots b.replicas b.parts),
      s.1 < b.parts ∧ s.2 < b.replicaCountFor s.1 := by
    intro k s hs
    have := (seededOrder_perm k (allSlots b.replicas b.parts)).mem_iff.mp hs
    exact mem_allSlots.mp this
  have htb : (planStart b).table = b.replica2part2dev := rfl
  have hlmb : (planStart b).last_part_moves = b.last_part_moves := rfl
  -- pass A gathers nothing: every slot is live and no device is pending
  have hA := gatherPass_quiescent now (ruleMandatory b.devs)
    (seededOrder (mix seed 1) (allSlots b.replicas b.parts)) (planStart b)
    (by
      intro s2 ht hlm hw s hs hgather
      rcases tableAllLive_spec b hlive s.1 s.2 (horder _ s hs).1
        (horder _ s hs).2 with ⟨d, dev, hent, hdev, hpend⟩
      unfold ruleMandatory at hgather
      rw [ht, htb, hent] at hgather
      simp [Option.join, hdev, hpend] at hgather)
  -- pass B gathers nothing: dwell blocks every voluntary move
  have hB := gatherPass_quiescent now
    (ruleDispersion b.devs b.min_part_hours now)
    (seededOrder (mix seed 2) (allSlots b.replicas b.parts))
    (gatherPass now (ruleMandatory b.devs)
      (seededOrder (mix seed 1) (allSlots b.replicas b.parts)) (planStart b))
    (by
      intro s2 ht hlm hw s hs hgather
      have hdw := allDwellBlocked_spec b now hdwell s.1 (horder _ s hs).1
      unfold ruleDispersion at hgather
      rw [hlm, hA.2.1, hlmb] at hgather
      cases hj : ((rowAt s2.table s.1)[s.2]?).join with
      | none => rw [hj] at hgather; cases hgather
      | some d =>
          rw [hj] at hgather
          simp only [hdw, Bool.false_eq_true, if_false] at hgather
          by_cases hviol : dispersionViolationAt b.devs s2.table s.1 s.2 = true
          · simp [hviol] at hgather
          · simp only [Bool.not_eq_true] at hviol
            simp [hviol] at hgather)
  -- pass C gathers nothing: dwell blocks every voluntary move
  have hC := gatherPass_quiescent now (ruleBalance b.min_part_hours now)
    (seededOrder (mix seed 3) (allSlots b.replicas b.parts))
    (gatherPass now (ruleDispersion b.devs b.min_part_hours now)
      (seededOrder (mix seed 2) (allSlots b.replicas b.parts))
      (gatherPass now (ruleMandatory b.devs)
        (seededOrder (mix seed 1) (allSlots b.replicas b.parts))
        (planStart b)))
    (by
      intro s2 ht hlm hw s hs hgather
      have hdw := allDwellBlocked_spec b now hdwell s.1 (horder _ s hs).1
      unfold ruleBalance at hgather
      rw [hlm, hB.2.1, hA.2.1, hlmb] at hgather
      cases hj : ((rowAt s2.table s.1)[s.2]?).join with
      | none => rw [hj] at hgather; cases hgather
      | some d =>
          rw [hj] at hgather
          simp only [hdw, Bool.false_eq_true, if_false] at hgather
          split at hgather <;> cases hgather)
  have hgat : (planGather b seed now).gathered = [] := by
    unfold planGather
    rw [hC.2.2.2, hB.2.2.2, hA.2.2.2]
    rfl
  have htab : (planGather b seed now).table = b.replica2part2dev := by
    unfold planGather
    rw [hC.1, hB.1, hA.1]
    exact htb
  have hlmf : (planGather b seed now).last_part_moves = b.last_part_moves := by
    unfold planGather
    rw [hC.2.1, hB.2.1, hA.2.1]
    exact hlmb
  have hpl : (planPlace b seed now).table = (planGather b seed now).table := by
    unfold planPlace
    rw [hgat]
    rfl
  refine ⟨?_, ?_, ?_, ?_⟩
  · show (planGather b seed now).gathered.length = 0
    rw [hgat]
    rfl
  · show removedCount b.devs (commitDevs b.devs (planPlace b seed now).table
      (weight_of_one_part b)) = 0
    unfold removedCount
    rw [List.countP_eq_zero]
    intro i hi
    cases hdev : devAt b.devs i with
    | none => simp [hdev]
    | some d =>
        have hdm : some d ∈ b.devs := by
          have hget : b.devs[i]? = some (some d) := by
            have hj := hdev
            unfold devAt at hj
            cases hb2 : b.devs[i]? with
            | none => rw [hb2] at hj; cases hj
            | some od =>
                rw [hb2] at hj
                cases od with
                | none => cases hj
                | some d2 =>
                    simp only [Option.join, Option.bind, id_eq] at hj
                    cases hj
                    rfl
          rcases List.getElem?_eq_some.mp hget with ⟨hlen2, hg⟩
          exact hg ▸ List.getElem_mem hlen2
        have hmem : d ∈ allDevs b.devs :=
          List.mem_filterMap.mpr ⟨some d, hdm, rfl⟩
        have hpend : d.pending_removal = false := by
          have := (List.all_eq_true.mp hnopend) d hmem
          simpa using this
        have hcom : devAt (commitDevs b.devs (planPlace b seed now).table
            (weight_of_one_part b)) i =
            some { d with parts := countRefs (planPlace b seed now).table i
                          parts_wanted :=
                            ((d.weight.mul (weight_of_one_part b)).roundNat : Int) -
                              (countRefs (planPlace b seed now).table i : Int) } := by
          rw [devAt_commitDevs, hdev]
          simp [hpend]
        simp [hdev, hcom]
  · show (planPlace b seed now).table = b.replica2part2dev
    rw [hpl, htab]
  · show (planGather b seed now).last_part_moves = b.last_part_moves
    exact hlmf

/-! ### Concrete scenario builders at part power 3

The test scenarios of the suite, shrunk from part powers 4, 6 and 10 to
part power 3 so that the kernel can evaluate them: the four-device sample
ring, its first rebalance, the removal of device 0, and a lightly loaded
topology that is not at risk. -/

def sampleRing3 : RingBuilder := create_sample_ring 3

def rebalanced3 : RingBuilder := (cli_rebalance sampleRing3 3 0).builder

def searchId0 : DevSearch := { id := some 0 }

def removed3 : RingBuilder :=
  match remove_dev rebalanced3 searchId0 with
  | .ok b2 => b2
  | .error _ => rebalanced3

def calm3 : RingBuilder :=
  let b0 := RingBuilder.create 3 (Frac.ofNat 3) 1
  let b1 := tryAdd b0 (mkDev 0 0 "127.0.0.1" 6200 "sda1" "" (Frac.ofNat 2))
  let b2 := tryAdd b1 (mkDev 1 1 "127.0.0.2" 6201 "sda2" "" (Frac.ofNat 2))
  let b3 := tryAdd b2 (mkDev 2 2 "127.0.0.3" 6202 "sdc3" "" (Frac.ofNat 2))
  tryAdd b3 (mkDev 3 3 "127.0.0.4" 6203 "sdd4" "" (Frac.ofNat 2))

def fallbackDev : Device := mkDev 0 0 "0.0.0.0" 0 "d" "" Frac.zero

def removed3dev0 : Device := (devAt removed3.devs 0).getD fallbackDev

def sr3dev0 : Device := (devAt sampleRing3.devs 0).getD fallbackDev

/-! ### Indexing helper -/

theorem devAt_getElem? {devs : List (Option Device)} {i : Nat} {d : Device}
    (h : devAt devs i = some d) : devs[i]? = some (some d) := by
  unfold devAt at h
  cases hb : devs[i]? with
  | none => rw [hb] at h; cases h
  | some od =>
      rw [hb] at h
      cases od with
      | none => cases h
      | some d2 =>
          simp only [Option.join, Option.bind, id_eq] at h
          cases h
          rfl

/-! ### Claim C1 -/

/-- C1: on a well-formed builder, every rebalance that completes
successfully yields a builder on which validate(strict=false) does not
fail, and in which every partition's replica devices are pairwise
distinct. -/
theorem rebalance_validates (b : RingBuilder) (seed now : Nat)
    (hwf : b.wfB = true) :
    rebalanceValidatesPost b seed now := by
  intro r hr
  rcases rebalance_ok_elim hr with ⟨hre, hcount⟩
  subst hre
  have h := rebalanceCommit_spec b seed now ((wfB_iff b).mp hwf) hcount
  exact ⟨h.1, h.2.1⟩

theorem rebalance_validates_witness :
    rebalanceValidatesPost sampleRing3 3 0 :=
  rebalance_validates sampleRing3 3 0 (by decide)

/-! ### Claim C8 -/

/-- C8: setting a negative overload is an input error: the operation aborts
with exit code 2 and the builder is returned unchanged, its overload still
at the prior value. -/
theorem set_overload_negative_error (b : RingBuilder) (x : Frac)
    (hx : Frac.lt Frac.zero x = true) :
    set_overload b x.neg = Except.error RingError.inputError ∧
    cli_set_overload b x.neg = (EXIT_ERROR, b) := by
  have hneg : Frac.lt x.neg Frac.zero = true := by
    simp only [Frac.lt, Frac.neg, Frac.zero, decide_eq_true_eq,
      Nat.cast_one, mul_one, zero_mul] at hx ⊢
    omega
  constructor
  · unfold set_overload
    rw [if_pos hneg]
  · unfold cli_set_overload set_overload
    rw [if_pos hneg]

theorem set_overload_negative_error_witness :
    Frac.lt Frac.zero (Frac.ofNat 1) = true ∧
    cli_set_overload sampleRing3 (Frac.ofNat 1).neg =
      (EXIT_ERROR, sampleRing3) :=
  ⟨by decide,
   (set_overload_negative_error sampleRing3 (Frac.ofNat 1) (by decide)).2⟩

/-! ### Claim C9 -/

/-- C9: the cached dispersion score is invalidated (set to unknown) by
every successful device add, remove and reweight, is recomputed to a
concrete value exactly by rebalance, and is left untouched by the
non-topology operation set_overload. -/
theorem dispersion_cache_lifecycle (b : RingBuilder) (d : Device)
    (eid : Option Nat) (c : DevSearch) (w q : Frac) (seed now : Nat) :
    (∀ b2, add_dev b d eid = Except.ok b2 → b2.dispersion = none) ∧
    (∀ b2, remove_dev b c = Except.ok b2 → b2.dispersion = none) ∧
    (∀ b2, set_weight b c w = Except.ok b2 → b2.dispersion = none) ∧
    (∀ b2, set_overload b q = Except.ok b2 → b2.dispersion = b.dispersion) ∧
    (∀ r, rebalance b seed now = Except.ok r →
      ∃ v, r.builder.dispersion = some v) := by
  refine ⟨?_, ?_, ?_, ?_, ?_⟩
  · intro b2 h
    unfold add_dev at h
    split at h
    · cases h
    · split at h
      · cases h
      · split at h
        · split at h
          · cases h
          · cases h; rfl
        · cases h; rfl
  · intro b2 h
    unfold remove_dev at h
    split at h
    · cases h
    · cases h; rfl
    · cases h
  · intro b2 h
    unfold set_weight at h
    split at h
    · cases h
    · cases h; rfl
    · cases h
  · intro b2 h
    unfold set_overload at h
    split at h
    · cases h
    · cases h; rfl
  · intro r hr
    rcases rebalance_ok_elim hr with ⟨hre, _⟩
    subst hre
    exact ⟨_, rfl⟩

set_option maxRecDepth 60000 in
theorem dispersion_cache_lifecycle_witness :
    (∃ v, (rebalanceCommit sampleRing3 3 0).builder.dispersion = some v) ∧
    removed3.dispersion = none :=
  ⟨(dispersion_cache_lifecycle sampleRing3 fallbackDev none searchId0
      Frac.zero Frac.zero 3 0).2.2.2.2 (rebalanceCommit sampleRing3 3 0) rfl,
   (dispersion_cache_lifecycle rebalanced3 fallbackDev none searchId0
      Frac.zero Frac.zero 3 0).2.1 removed3 (by rfl)⟩

/-! ### Claim C5 -/

/-- C5: removing a device by any selector that uniquely identifies it
succeeds, sets exactly that device's weight to 0 and flags it
pending-removal, and leaves the assignment table, the move history, the
registry size, every other device and every hole untouched. -/
theorem remove_dev_frame (b : RingBuilder) (c : DevSearch) (d : Device)
    (h : search_devs b c = [d]) :
    ∃ b2, remove_dev b c = Except.ok b2 ∧
      b2.replica2part2dev = b.replica2part2dev ∧
      b2.last_part_moves = b.last_part_moves ∧
      b2.devs.length = b.devs.length ∧
      (∀ i e, devAt b.devs i = some e → e.id = d.id →
        devAt b2.devs i =
          some { e with weight := Frac.zero, pending_removal := true }) ∧
      (∀ i e, devAt b.devs i = some e → e.id ≠ d.id →
        devAt b2.devs i = some e) ∧
      (∀ i, devAt b.devs i = none → devAt b2.devs i = none) := by
  refine ⟨{ b with
      devs := b.devs.map (fun od =>
        match od with
        | some e =>
            if e.id = d.id then
              some { e with weight := Frac.zero, pending_removal := true }
            else some e
        | none => none)
      dispersion := none }, ?_, rfl, rfl, ?_, ?_, ?_, ?_⟩
  · unfold remove_dev
    rw [h]
  · exact List.length_map _ _
  · intro i e he hid
    have hg := devAt_getElem? he
    unfold devAt
    simp only [List.getElem?_map, hg]
    simp [Option.join, hid]
  · intro i e he hid
    have hg := devAt_getElem? he
    unfold devAt
    simp only [List.getElem?_map, hg]
    simp [Option.join, hid]
  · intro i hnone
    unfold devAt at hnone ⊢
    cases hb2 : b.devs[i]? with
    | none => simp [List.getElem?_map, hb2]
    | some od =>
        rw [hb2] at hnone
        cases od with
        | none => simp [List.getElem?_map, hb2]
        | some e => simp [Option.join, Option.bind, id_eq] at hnone

theorem remove_dev_frame_witness :
    ∃ b2, remove_dev sampleRing3 searchId0 = Except.ok b2 ∧
      b2.replica2part2dev = sampleRing3.replica2part2dev ∧
      b2.last_part_moves = sampleRing3.last_part_moves ∧
      b2.devs.length = sampleRing3.devs.length ∧
      (∀ i e, devAt sampleRing3.devs i = some e → e.id = sr3dev0.id →
        devAt b2.devs i =
          some { e with weight := Frac.zero, pending_removal := true }) ∧
      (∀ i e, devAt sampleRing3.devs i = some e → e.id ≠ sr3dev0.id →
        devAt b2.devs i = some e) ∧
      (∀ i, devAt sampleRing3.devs i = none → devAt b2.devs i = none) :=
  remove_dev_frame sampleRing3 searchId0 sr3dev0 (by decide)

/-! ### Claim C10 -/

theorem min_part_seconds_left_congr (b1 b2 : RingBuilder) (now : Nat)
    (hlm : b1.last_part_moves = b2.last_part_moves)
    (hmph : b1.min_part_hours = b2.min_part_hours) :
    min_part_seconds_left b1 now = min_part_seconds_left b2 now := by
  unfold min_part_seconds_left
  have h1 : lastMoveTime b1 = lastMoveTime b2 := by
    unfold lastMoveTime
    rw [hlm]
  rw [h1]
  rcases h2 : lastMoveTime b2 with _ | t <;> simp [hmph]

/-- C10: a successful rebalance that moves no partitions leaves the
per-partition move history and the dwell countdown unchanged, so the
countdown keeps running from the original move times; a rebalance that
does move partitions stamps them with the current time, resetting the
countdown to the full min_part_hours. -/
theorem last_moves_epoch (b : RingBuilder) (seed now : Nat)
    (hwf : b.wfB = true) :
    ∀ r, rebalance b seed now = Except.ok r →
      (r.parts_moved = 0 →
        r.builder.last_part_moves = b.last_part_moves ∧
        min_part_seconds_left r.builder now = min_part_seconds_left b now) ∧
      (0 < r.parts_moved →
        (∀ x ∈ b.last_part_moves.filterMap id, x ≤ now) →
        lastMoveTime r.builder = some now ∧
        min_part_seconds_left r.builder now = b.min_part_hours * 3600) := by
  intro r hr
  rcases rebalance_ok_elim hr with ⟨hre, hcount⟩
  subst hre
  have h := rebalanceCommit_spec b seed now ((wfB_iff b).mp hwf) hcount
  constructor
  · intro h0
    have hlm := h.2.2.2.2.2.2.1 h0
    exact ⟨hlm, min_part_seconds_left_congr _ _ _ hlm rfl⟩
  · intro hpos hpast
    have hlmt := h.2.2.2.2.2.2.2 hpos hpast
    refine ⟨hlmt, ?_⟩
    unfold min_part_seconds_left
    rw [hlmt]
    show (rebalanceCommit b seed now).builder.min_part_hours * 3600 -
      (now - now) = b.min_part_hours * 3600
    have hmph : (rebalanceCommit b seed now).builder.min_part_hours =
        b.min_part_hours := rfl
    rw [hmph]
    omega

set_option maxRecDepth 60000 in
theorem last_moves_epoch_witness :
    lastMoveTime (rebalanceCommit sampleRing3 3 0).builder = some 0 ∧
    min_part_seconds_left (rebalanceCommit sampleRing3 3 0).builder 0 =
      sampleRing3.min_part_hours * 3600 :=
  (last_moves_epoch sampleRing3 3 0 (by decide)
    (rebalanceCommit sampleRing3 3 0) rfl).2 (by decide) (by decide)

/-! ### Claim C3 -/

/-- C3: the persisted form of a well-formed builder loads back verbatim,
and rebalance is a pure function of the builder state, the seed and the
time: running it on the reloaded state and on the original with the same
seed produces byte-identical persisted assignment tables. -/
theorem save_load_roundtrip_determinism (b : RingBuilder) (seed now : Nat)
    (hwf : b.wfB = true) (hok : tableIdsOkB b = true) :
    load (save b) = some b ∧
    ∀ b2 r1 r2, load (save b) = some b2 →
      rebalance b2 seed now = Except.ok r1 →
      rebalance b seed now = Except.ok r2 →
      (save r1.builder).table = (save r2.builder).table := by
  obtain ⟨htlen, hrlen, hnodup, hlmlen, hids⟩ := (wfB_iff b).mp hwf
  have hdevs2 : (b.devs.map (Option.map encodeDev)).map (Option.map decodeDev)
      = b.devs := by
    rw [List.map_map]
    have h : (Option.map decodeDev ∘ Option.map encodeDev) =
        (id : Option Device → Option Device) := by
      funext od
      cases od <;> rfl
    rw [h, List.map_id]
  have htab2 : (b.replica2part2dev.map (fun row => row.map encodeEntry)).map
      (fun row => row.map decodeEntry) = b.replica2part2dev := by
    rw [List.map_map]
    have h : ∀ row ∈ b.replica2part2dev,
        ((fun row => row.map decodeEntry) ∘
          (fun row => row.map encodeEntry)) row = id row := by
      intro row hrow
      show (row.map encodeEntry).map decodeEntry = row
      rw [List.map_map]
      have hent : ∀ e ∈ row, (decodeEntry ∘ encodeEntry) e = id e := by
        intro e he
        cases e with
        | none => rfl
        | some i =>
            have hmem : i ∈ rowIds row :=
              List.mem_filterMap.mpr ⟨some i, he, rfl⟩
            have hi : i < NONE_DEV := by
              unfold tableIdsOkB at hok
              have h1 := (List.all_eq_true.mp hok) row hrow
              have h2 := (List.all_eq_true.mp h1) i hmem
              simpa using h2
            show decodeEntry (encodeEntry (some i)) = some i
            have he1 : encodeEntry (some i) = i := rfl
            rw [he1]
            unfold decodeEntry
            rw [if_neg (by omega)]
      rw [List.map_congr_left hent, List.map_id]
    rw [List.map_congr_left h, List.map_id]
  have hlm2 : (b.last_part_moves.map encodeMove).map decodeMove
      = b.last_part_moves := by
    rw [List.map_map]
    have h : (decodeMove ∘ encodeMove) =
        (id : Option Nat → Option Nat) := by
      funext m
      cases m with
      | none => rfl
      | some t =>
          show decodeMove (encodeMove (some t)) = some t
          have he1 : encodeMove (some t) = t + 1 := rfl
          rw [he1]
          unfold decodeMove
          rw [if_neg (by omega)]
          simp
    rw [h, List.map_id]
  have hcond : ((save b).table.length == 2 ^ (save b).part_power &&
      (save b).last_part_moves.length == 2 ^ (save b).part_power) = true := by
    simp only [save, List.length_map]
    rw [htlen, hlmlen]
    simp [RingBuilder.parts]
  have hrt : load (save b) = some b := by
    unfold load
    rw [if_pos hcond]
    simp only [save]
    rw [hdevs2, htab2, hlm2]
  refine ⟨hrt, ?_⟩
  intro b2 r1 r2 h2 hr1 hr2
  rw [hrt] at h2
  cases h2
  rw [hr1] at hr2
  cases hr2
  rfl

theorem save_load_roundtrip_determinism_witness :
    load (save sampleRing3) = some sampleRing3 :=
  (save_load_roundtrip_determinism sampleRing3 3 0 (by decide) (by decide)).1

/-! ### Claim C4 -/

def removed3dev1 : Device := (devAt removed3.devs 1).getD fallbackDev

/-- C4 (amended): mandatory shedding ignores the dwell time: on a
well-formed builder, every device flagged pending-removal is fully
evacuated and dropped by the next successful rebalance even when every
partition is still inside its min_part_hours window, so the removal
rebalance completes rather than deferring. -/
theorem remove_then_rebalance_sheds (b : RingBuilder) (seed now : Nat)
    (hwf : b.wfB = true) (hdwell : allDwellBlocked b now = true) :
    ∀ r, rebalance b seed now = Except.ok r →
      ∀ i d, devAt b.devs i = some d → d.pending_removal = true →
        devAt r.builder.devs i = none ∧
        countRefs r.builder.replica2part2dev i = 0 := by
  intro r hr i d hdev hpend
  rcases rebalance_ok_elim hr with ⟨hre, hcount⟩
  subst hre
  exact (rebalanceCommit_spec b seed now ((wfB_iff b).mp hwf) hcount).2.2.1
    i d hdev hpend

set_option maxRecDepth 60000 in
theorem remove_then_rebalance_sheds_witness :
    devAt (rebalanceCommit removed3 3 0).builder.devs 0 = none ∧
    countRefs (rebalanceCommit removed3 3 0).builder.replica2part2dev 0
      = 0 :=
  remove_then_rebalance_sheds removed3 3 0 (by decide) (by decide)
    (rebalanceCommit removed3 3 0) rfl 0 removed3dev0 (by decide) (by decide)

set_option maxRecDepth 60000 in
/-- C4 (counterexample): rebalancing right after the removal, with every
partition still inside its dwell window, completes with exit code 0 and
moves partitions rather than deferring with exit code 1. -/
theorem remove_then_rebalance_defers_counterexample :
    allDwellBlocked removed3 0 = true ∧
    (cli_rebalance removed3 3 0).exit = EXIT_SUCCESS ∧
    0 < (cli_rebalance removed3 3 0).parts_moved ∧
    EXIT_SUCCESS ≠ EXIT_WARNING := by decide

/-! ### Claim C6 -/

/-- C6: a pending-removal device is physically dropped from the registry
exactly at the commit of a rebalance that leaves it with zero assigned
replicas; its index becomes a hole, rebalance never fills a hole with a
different device, non-pending devices survive commit, and the registry
keeps its length so ids are not reused. -/
theorem pending_dropped_at_commit (b : RingBuilder) (seed now : Nat)
    (hwf : b.wfB = true) :
    ∀ r, rebalance b seed now = Except.ok r →
      (∀ i d, devAt b.devs i = some d → d.pending_removal = true →
        devAt r.builder.devs i = none ∧
        countRefs r.builder.replica2part2dev i = 0) ∧
      (∀ i, devAt b.devs i = none → devAt r.builder.devs i = none) ∧
      (∀ i d, devAt b.devs i = some d → d.pending_removal = false →
        ∃ d2, devAt r.builder.devs i = some d2 ∧
          d2.pending_removal = false) ∧
      r.builder.devs.length = b.devs.length := by
  intro r hr
  rcases rebalance_ok_elim hr with ⟨hre, hcount⟩
  subst hre
  have h := rebalanceCommit_spec b seed now ((wfB_iff b).mp hwf) hcount
  exact ⟨h.2.2.1, h.2.2.2.2.1, h.2.2.2.1, h.2.2.2.2.2.1⟩

set_option maxRecDepth 60000 in
theorem pending_dropped_at_commit_witness :
    (rebalanceCommit removed3 3 0).builder.devs.length =
      removed3.devs.length ∧
    (∃ d2, devAt (rebalanceCommit removed3 3 0).builder.devs 1 = some d2 ∧
      d2.pending_removal = false) := by
  have h := pending_dropped_at_commit removed3 3 0 (by decide)
    (rebalanceCommit removed3 3 0) rfl
  exact ⟨h.2.2.2, h.2.2.1 1 removed3dev1 (by decide) (by decide)⟩

/-! ### Claim C2 -/

/-- C2 (amended): an immediate second rebalance — well-formed builder,
fully live table, no pending removals, every partition inside its dwell
window — moves zero partitions with outcome no-op and leaves the table and
the move history untouched, but the CLI classifies the call as the warning
exit code 1, not as success. -/
theorem rebalance_noop_second_run (b : RingBuilder) (seed now : Nat)
    (hwf : b.wfB = true) (hlive : tableAllLive b = true)
    (hdwell : allDwellBlocked b now = true)
    (hnopend : noPendingDevs b = true) :
    ∀ r, rebalance b seed now = Except.ok r →
      r.parts_moved = 0 ∧ r.outcome = Outcome.noop ∧
      r.builder.replica2part2dev = b.replica2part2dev ∧
      r.builder.last_part_moves = b.last_part_moves ∧
      (cli_rebalance b seed now).exit = EXIT_WARNING := by
  intro r hr
  have h := rebalance_quiescent b seed now ((wfB_iff b).mp hwf) hlive hdwell
    hnopend r hr
  rcases rebalance_ok_elim hr with ⟨hre, hcount⟩
  have hout : r.outcome = Outcome.noop := by
    subst hre
    show (if (planGather b seed now).gathered.length = 0 then Outcome.noop
      else if 0 < (planGather b seed now).deferredCount then
        Outcome.movesDeferred else Outcome.fullyBalanced) = Outcome.noop
    have h0 : (planGather b seed now).gathered.length = 0 := h.1
    rw [if_pos h0]
  have hcli : (cli_rebalance b seed now).exit = EXIT_WARNING := by
    unfold cli_rebalance
    rw [hr]
    simp [h.1, h.2.1]
  exact ⟨h.1, hout, h.2.2.1, h.2.2.2, hcli⟩

set_option maxRecDepth 60000 in
theorem rebalance_noop_second_run_witness :
    (cli_rebalance rebalanced3 3 0).exit = EXIT_WARNING :=
  (rebalance_noop_second_run rebalanced3 3 0 (by decide) (by decide)
    (by decide) (by decide) (rebalanceCommit rebalanced3 3 0) rfl).2.2.2.2

set_option maxRecDepth 60000 in
/-- C2 (counterexample): the immediate second rebalance of the sample ring
is a no-op, and the CLI reports it with the warning exit code 1, not as
success. -/
theorem rebalance_noop_success_counterexample :
    (cli_rebalance rebalanced3 3 0).parts_moved = 0 ∧
    (cli_rebalance rebalanced3 3 0).exit = EXIT_WARNING ∧
    EXIT_WARNING ≠ EXIT_SUCCESS := by decide

/-! ### Claim C7 -/

theorem lt_divQ_one (a w : Frac) (hw : 0 < w.num) :
    Frac.lt (a.divQ w) (Frac.ofNat 1) = Frac.lt a w := by
  unfold Frac.divQ
  rw [if_neg (by omega : ¬ w.num < 0)]
  unfold Frac.lt Frac.ofNat
  apply decide_eq_decide.mpr
  simp only [Nat.cast_one, mul_one, one_mul, Nat.cast_mul]
  rw [Int.natAbs_of_nonneg (by omega)]
  rw [mul_comm (a.den : Int) w.num]

set_option maxRecDepth 60000 in
/-- C7 (amended): the at-risk flag is true exactly when the total weight
exceeds parts times replicas, equivalently when the weight of one part is
below one (for a positive total weight); the flag is advisory only: a
completed rebalance is never reported as the error exit code, and a
topology whose total weight does not exceed parts times replicas is not
flagged and rebalances with exit code 0. -/
theorem at_risk_advisory (b : RingBuilder) (seed now : Nat)
    (hpos : 0 < (total_weight b).num) :
    (at_risk b = true ↔
      Frac.lt (weight_of_one_part b) (Frac.ofNat 1) = true) ∧
    (∀ r, rebalance b seed now = Except.ok r →
      (cli_rebalance b seed now).exit ≠ EXIT_ERROR) ∧
    at_risk calm3 = false ∧
    (cli_rebalance calm3 3 0).exit = EXIT_SUCCESS := by
  have h1 : Frac.lt (weight_of_one_part b) (Frac.ofNat 1) = at_risk b := by
    unfold weight_of_one_part at_risk
    exact lt_divQ_one _ _ hpos
  refine ⟨by rw [h1], ?_, by decide, by decide⟩
  intro r hr
  simp only [cli_rebalance, hr]
  split
  · simp [EXIT_WARNING, EXIT_ERROR]
  · split
    · simp [EXIT_WARNING, EXIT_ERROR]
    · simp [EXIT_SUCCESS, EXIT_ERROR]

set_option maxRecDepth 60000 in
/-- C7 (counterexample): the sample ring is at risk — its total weight
exceeds parts times replicas — yet its completed rebalance is reported as
plain success, exit code 0, not as a warning. -/
theorem at_risk_warning_counterexample :
    at_risk sampleRing3 = true ∧
    (cli_rebalance sampleRing3 3 0).exit = EXIT_SUCCESS ∧
    EXIT_SUCCESS ≠ EXIT_WARNING := by decide

set_option maxRecDepth 60000 in
theorem at_risk_advisory_witness :
    0 < (total_weight sampleRing3).num ∧
    (at_risk sampleRing3 = true ↔
      Frac.lt (weight_of_one_part sampleRing3) (Frac.ofNat 1) = true) :=
  ⟨by decide, (at_risk_advisory sampleRing3 3 0 (by decide)).1⟩
